import Mathlib

/-!
# Shannon-Fano coder (`src/main.cpp`): embedding and verification

The program is written against Qt 4/5 containers.  They are embedded as follows.

* `char` is one byte, kept by its unsigned value (`Fin 256`); where the program
  compares chars (keys of a `QMap<char, _>`, the test `extra > 0`) the signed
  value `charVal` is used, as on the platforms where `char` is signed.
* `QByteArray` and `QList<T>` are lists.
* `QMap<K, V>` is an association list kept in ascending key order; `insert`
  replaces the value of a key that is already present.
* `QByteArray::at(i)` with `i == size()` reads the terminating zero byte that a
  QByteArray keeps after its data (the `Q_ASSERT` on the index is compiled out
  of a release build), and an assignment through `QByteArray::operator[]` at
  `i >= size()` first extends the array (`QByteRef`).  `bitsToBytes` relies on
  both: it sizes the array to `bits.size() / 8` bytes and lets the loop add
  the last, partly filled byte.
* A count is an `int`, kept as an integer.  The sums and the difference that
  `balancedMid` forms are 32-bit `int` arithmetic and wrap around (`wrapInt`);
  for a list with non-negative counts whose total is below 2^31, as every
  list built from a buffer is, nothing wraps.  The counting in `buildList`
  stays below the size of the buffer, which is below 2^31.
* `qSort` is the quick sort of `qalgorithms.h` (`qSortHelper`).
* Recursion and loops that the program does not bound carry a counter
  (`fuel`); running out of it is reported as such and never read as a result.
-/

namespace ShannonFano

/-! ## Data model -/

/-- One `char`, by its unsigned value. -/
abbrev Byte := Fin 256

/-- A byte buffer (`QByteArray`). -/
abbrev QByteArray := List Byte

/-- Symbol-frequency pair: `typedef QPair<char, int> Pair`. -/
abbrev Pair := Byte × Int

/-- List of zeros and ones: `typedef QList<bool> CodeList`. -/
abbrev CodeList := List Bool

/-- Direction of a tree branch: `enum Branch`. -/
inductive Branch where
  | Left
  | Right
  deriving DecidableEq, Repr

/-- Signed value of a `char`. -/
def charVal (c : Byte) : Int :=
  if c.val < 128 then (c.val : Int) else (c.val : Int) - 256

/-- Order of `char` keys: `operator<` on signed chars. -/
def charLt (a b : Byte) : Bool := decide (charVal a < charVal b)

/-- Order of `int` keys. -/
def intLt (a b : Int) : Bool := decide (a < b)

/-- Conversion of a non-negative `int` to `char`: the low eight bits. -/
def natToChar (n : Nat) : Byte := ⟨n % 256, Nat.mod_lt n (by decide)⟩

/-- Conversion of an `int` to `char`: the low eight bits. -/
def intToChar (z : Int) : Byte :=
  ⟨(z % 256).toNat, by
    have h1 : 0 ≤ z % 256 := Int.emod_nonneg z (by decide)
    have h2 : z % 256 < 256 := Int.emod_lt_of_pos z (by decide)
    omega⟩

/-! ## QMap -/

/-- Qt `QMap::insert(k, v)` on a map kept as a key-ordered association list. -/
def qmapInsert {κ α : Type} (lt : κ → κ → Bool) (k : κ) (v : α) :
    List (κ × α) → List (κ × α)
  | [] => [(k, v)]
  | (k1, v1) :: rest =>
    if lt k k1 then (k, v) :: (k1, v1) :: rest
    else if lt k1 k then (k1, v1) :: qmapInsert lt k v rest
    else (k, v) :: rest

/-- Qt `QMap::value(k)`: the value stored under `k`, or a default-constructed
value (`dflt`) when there is none. -/
def qmapValue {κ α : Type} [DecidableEq κ] (m : List (κ × α)) (k : κ) (dflt : α) : α :=
  match m with
  | [] => dflt
  | (k1, v1) :: rest => if k1 = k then v1 else qmapValue rest k dflt

/-- Qt `QMap::contains(k)`. -/
def qmapContains {κ α : Type} [DecidableEq κ] (m : List (κ × α)) (k : κ) : Bool :=
  match m with
  | [] => false
  | (k1, _) :: rest => if k1 = k then true else qmapContains rest k

/-- Qt `QMap::keys()`: the keys in ascending order. -/
def qmapKeys {κ α : Type} (m : List (κ × α)) : List κ := m.map Prod.fst

/-- Qt `QMap::values()`: the values in ascending key order. -/
def qmapValues {κ α : Type} (m : List (κ × α)) : List α := m.map Prod.snd

/-- The code table: `QMap<char, CodeList>`. -/
abbrev CodeMap := List (Byte × CodeList)

/-! ## Bit packing -/

/-- Read `bytes.at(i)`: the byte at `i`; at `i == size()` the terminating zero. -/
def byteAt (bytes : QByteArray) (i : Nat) : Byte := bytes.getD i 0

/-- Assignment `bytes[i] = c`, made through `QByteRef`, which extends the array
to `i + 1` bytes when `i` is not below its size. -/
def byteAssign (bytes : QByteArray) (i : Nat) (c : Byte) : QByteArray :=
  if i < bytes.length then bytes.set i c
  else bytes ++ List.replicate (i - bytes.length) 0 ++ [c]

/-- Body of the loop of `bitsToBytes` for index `b`:
`bytes[b/8] = (bytes.at(b / 8) | ((bits.at(b) ? 1 : 0) << (b % 8)))`.
The promotion to `int` and the conversion back to `char` keep the low eight
bits, so the new byte is the bitwise or of the unsigned values. -/
def bitsToBytesStep (bits : List Bool) (bytes : QByteArray) (b : Nat) : QByteArray :=
  byteAssign bytes (b / 8)
    (natToChar ((byteAt bytes (b / 8)).val |||
      ((if bits.getD b false then 1 else 0) <<< (b % 8))))

/-- Source `bitsToBytes`: `bytes.resize(bits.size() / 8); bytes.fill(0);` and then
the loop over `b = 0 .. bits.size() - 1`. -/
def bitsToBytes (bits : List Bool) : QByteArray :=
  (List.range bits.length).foldl (bitsToBytesStep bits)
    (List.replicate (bits.length / 8) 0)

/-- Inner loop of `bytesToBits` for one char `c`: `k` iterations are left and
`mask` is the current `uchar` mask; each appends `uchar(c) & mask` as a bool. -/
def charBits (c : Byte) : Nat → Nat → List Bool
  | 0, _ => []
  | k + 1, mask => ((c.val &&& mask) != 0) :: charBits c k ((mask * 2) % 256)

/-- Source `bytesToBits`: eight bits per byte, least significant first. -/
def bytesToBits (data : QByteArray) : List Bool :=
  data.flatMap (fun c => charBits c 8 1)

/-! ## Encoder -/

/-- The bit list built by the first loop of `zip`:
`foreach (char c, sourceData) list << codes.value(c)`. -/
def zipBits (sourceData : QByteArray) (codes : CodeMap) : List Bool :=
  sourceData.foldl (fun list c => list ++ qmapValue codes c []) []

/-- Source `zip`: one reserved byte, the packed bits, then the reserved byte is set
to `(data.size() - 1) * 8 - list.size()`. -/
def zip (sourceData : QByteArray) (codes : CodeMap) : QByteArray :=
  let list := zipBits sourceData codes
  let data : QByteArray := [0] ++ bitsToBytes list
  byteAssign data 0 (intToChar (((data.length : Int) - 1) * 8 - (list.length : Int)))

/-! ## Decoder -/

/-- What stops a run of the program short of a result. -/
inductive Fault where
  | outOfRange
  | outOfFuel
  deriving DecidableEq, Repr

/-- The loop `while (extra > 0) { nlist.removeLast(); --extra; }` of `unzip`,
with `n` the value of `extra`; `removeLast` on an empty list is a fault. -/
def removeExtra : Nat → List Bool → Except Fault (List Bool)
  | 0, nlist => .ok nlist
  | n + 1, nlist =>
    if nlist.isEmpty then .error .outOfRange else removeExtra n nlist.dropLast

/-- The comparison loop of `unzip` for one table entry,
`for (i = 0; i < p.first.size(); ++i) if (nlist.at(i) != p.first.at(i)) ...`,
walking `nlist` and the code in step: `true` when every bit of the code
agrees, `false` at the first disagreement, and a fault when `nlist.at(i)` is
reached with `i` not below `nlist.size()`. -/
def codeMatches : List Bool → CodeList → Except Fault Bool
  | _, [] => .ok true
  | [], _ :: _ => .error .outOfRange
  | x :: nlist, y :: code => if x != y then .ok false else codeMatches nlist code

/-- One pass of the outer `while` loop of `unzip`: the `foreach` over the list
of code-symbol pairs.  The first entry whose code matches is removed from the
front of `nlist` and its symbol appended to `data`; without a match both are
left as they are. -/
def unzipPass : List (CodeList × Byte) → List Bool → QByteArray →
    Except Fault (List Bool × QByteArray)
  | [], nlist, data => .ok (nlist, data)
  | p :: rest, nlist, data =>
    match codeMatches nlist p.1 with
    | .error e => .error e
    | .ok true => .ok (nlist.drop p.1.length, data ++ [p.2])
    | .ok false => unzipPass rest nlist data

/-- The outer loop `while (!nlist.isEmpty())` of `unzip`, for at most `fuel`
passes. -/
def unzipLoop (codeList : List (CodeList × Byte)) :
    Nat → List Bool → QByteArray → Except Fault QByteArray
  | 0, nlist, data => if nlist.isEmpty then .ok data else .error .outOfFuel
  | fuel + 1, nlist, data =>
    if nlist.isEmpty then .ok data
    else
      match unzipPass codeList nlist data with
      | .error e => .error e
      | .ok (nlist1, data1) => unzipLoop codeList fuel nlist1 data1

/-- The list of code-symbol pairs that `unzip` builds from the map:
`foreach (char c, codes.keys()) codeList << qMakePair(codes.value(c), c)`. -/
def unzipCodeList (codes : CodeMap) : List (CodeList × Byte) :=
  (qmapKeys codes).map (fun c => (qmapValue codes c [], c))

/-- Source `unzip`, with `fuel` bounding the passes of its outer loop. -/
def unzip (fuel : Nat) (sourceData : QByteArray) (codes : CodeMap) :
    Except Fault QByteArray :=
  let codeList := unzipCodeList codes
  let nlist := bytesToBits (sourceData.drop 1)
  let extra := charVal (byteAt (sourceData.take 1) 0)
  match removeExtra extra.toNat nlist with
  | .error e => .error e
  | .ok nlist1 => unzipLoop codeList fuel nlist1 []

/-! ## Frequency analysis -/

/-- Source `reverseLessThan`: `x.second >= y.second`. -/
def reverseLessThan (x y : Pair) : Bool := decide (x.2 ≥ y.2)

/-- Body of the loop of `buildList` for the char `c`. -/
def buildListStep (frequencies : List (Byte × Pair)) (c : Byte) : List (Byte × Pair) :=
  if !qmapContains frequencies c then
    qmapInsert charLt c (c, 1) frequencies
  else
    let p := qmapValue frequencies c (0, 0)
    qmapInsert charLt c (p.1, p.2 + 1) frequencies

/-- Qt `qSwap(*i, *j)` on the positions `i` and `j` of a list. -/
def qSwap {α : Type} (l : List α) (i j : Nat) : List α :=
  match l[i]?, l[j]? with
  | some a, some b => (l.set i b).set j a
  | _, _ => l

/-- Call `lessThan(*i, *j)` on the positions `i` and `j` of a list. -/
def lessAt {α : Type} (lessThan : α → α → Bool) (l : List α) (i j : Nat) : Bool :=
  match l[i]?, l[j]? with
  | some a, some b => lessThan a b
  | _, _ => false

/-- Loop `while (low < high && lessThan(*low, *end)) ++low;` of `qSortHelper`;
returns the final `low`.  The counter bounds the iterations. -/
def scanUp {α : Type} (lessThan : α → α → Bool) (l : List α) (e high : Nat) :
    Nat → Nat → Nat
  | 0, low => low
  | n + 1, low =>
    if low < high && lessAt lessThan l low e then scanUp lessThan l e high n (low + 1)
    else low

/-- Loop `while (high > low && lessThan(*end, *high)) --high;` of `qSortHelper`;
returns the final `high`.  The counter bounds the iterations. -/
def scanDown {α : Type} (lessThan : α → α → Bool) (l : List α) (e low : Nat) :
    Nat → Nat → Nat
  | 0, high => high
  | n + 1, high =>
    if high > low && lessAt lessThan l e high then scanDown lessThan l e low n (high - 1)
    else high

/-- The partition loop `while (low < high) { ... }` of `qSortHelper`, with the
pivot at position `e`; returns the list and the final `low`.  The counter
bounds the iterations. -/
def partitionLoop {α : Type} (lessThan : α → α → Bool) (e : Nat) :
    Nat → List α → Nat → Nat → List α × Nat
  | 0, l, low, _ => (l, low)
  | n + 1, l, low, high =>
    if low < high then
      let low1 := scanUp lessThan l e high (high - low) low
      let high1 := scanDown lessThan l e low1 (high - low1) high
      if low1 < high1 then
        partitionLoop lessThan e n (qSwap l low1 high1) (low1 + 1) (high1 - 1)
      else (l, low1)
    else (l, low)

/-- Qt `QAlgorithmsPrivate::qSortHelper(start, end, t, lessThan)` on the list of
the elements between `start` and `end`; `fuel` bounds the depth of the
recursion.  The trailing `start = low + 1; ++end; goto top;` sorts the part
behind the pivot. -/
def qSortHelper {α : Type} (lessThan : α → α → Bool) : Nat → List α → List α
  | 0, l => l
  | fuel + 1, l =>
    let span := l.length
    if span < 2 then l
    else
      let e := span - 1
      let l1 := if lessAt lessThan l e 0 then qSwap l e 0 else l
      if span = 2 then l1
      else
        let pivot := span / 2
        let l2 := if lessAt lessThan l1 pivot 0 then qSwap l1 pivot 0 else l1
        let l3 := if lessAt lessThan l2 e pivot then qSwap l2 e pivot else l2
        if span = 3 then l3
        else
          let l4 := qSwap l3 pivot e
          let r := partitionLoop lessThan e span l4 0 (e - 1)
          let low := if lessAt lessThan r.1 r.2 e then r.2 + 1 else r.2
          let l6 := qSwap r.1 e low
          qSortHelper lessThan fuel (l6.take low) ++ (l6.drop low).take 1 ++
            qSortHelper lessThan fuel (l6.drop (low + 1))

/-- Qt `qSort(begin, end, lessThan)`. -/
def qSort {α : Type} (lessThan : α → α → Bool) (l : List α) : List α :=
  qSortHelper lessThan l.length l

/-- Source `buildList`: count the chars into `QMap<char, Pair> frequencies`, take
its values and sort them with `reverseLessThan`. -/
def buildList (data : QByteArray) : List Pair :=
  qSort reverseLessThan (qmapValues (data.foldl buildListStep []))

/-! ## Code construction -/

/-- The value that a 32-bit `int` takes for the arithmetic result `z`: `z`
itself inside the range of `int`, and its two's complement wrap-around outside
of it. -/
def wrapInt (z : Int) : Int := (z + 2147483648) % 4294967296 - 2147483648

/-- The `left` sum of `balancedMid` for the split index `i`:
`list.at(i).second` plus the counts at `0 .. i - 1`, added as `int`s. -/
def leftSum (list : List Pair) (i : Nat) : Int :=
  (List.range i).foldl (fun s j => wrapInt (s + (list.getD j (0, 0)).2))
    (list.getD i (0, 0)).2

/-- The `right` sum of `balancedMid` for the split index `i`:
`list.at(i + 1).second` plus the counts at `i + 2 .. size - 1`, added as
`int`s. -/
def rightSum (list : List Pair) (i : Nat) : Int :=
  (List.range' (i + 2) (list.length - (i + 2))).foldl
    (fun s j => wrapInt (s + (list.getD j (0, 0)).2)) (list.getD (i + 1) (0, 0)).2

/-- The key under which `balancedMid` stores the split index `i`:
`std::abs(left - right)`, computed in `int`. -/
def splitKey (list : List Pair) (i : Nat) : Int :=
  wrapInt |wrapInt (leftSum list i - rightSum list i)|

/-- The `QMap<int, int>` that `balancedMid` fills: for `i = 0 .. size - 2`,
`map.insert(std::abs(left - right), i)`. -/
def balancedMidMap (list : List Pair) : List (Int × Int) :=
  (List.range (list.length - 1)).foldl
    (fun map i => qmapInsert intLt (splitKey list i) (i : Int) map) []

/-- Source `balancedMid`: `-1` for an empty list, `0` for a list of one entry, and
otherwise `map.values().first()`. -/
def balancedMid (list : List Pair) : Int :=
  if list.isEmpty then -1
  else if list.length < 2 then 0
  else (qmapValues (balancedMidMap list)).headD 0

/-- Source `shannonFanoRecursive`, with `fuel` bounding the depth of the recursion
(`none` when it is used up).  `list.mid(0, mid + 1)` is the first `mid + 1`
entries and `list.mid(mid + 1)` the rest. -/
def shannonFanoRecursive : Nat → List Pair → CodeMap → Branch → CodeList → Option CodeMap
  | 0, _, _, _, _ => none
  | fuel + 1, list, codes, branch, parent =>
    let value : Bool := if Branch.Left = branch then false else true
    if list.length = 1 then
      some (qmapInsert charLt (list.headD (0, 0)).1 (parent ++ [value]) codes)
    else
      let mid := balancedMid list
      match shannonFanoRecursive fuel (list.take (mid + 1).toNat) codes Branch.Left
          (parent ++ [value]) with
      | none => none
      | some codes1 =>
        shannonFanoRecursive fuel (list.drop (mid + 1).toNat) codes1 Branch.Right
          (parent ++ [value])

/-- Source `shannonFano`: split at `balancedMid(list)` and build the codes of both
parts into `codes`. -/
def shannonFano (fuel : Nat) (list : List Pair) (codes : CodeMap) : Option CodeMap :=
  let mid := balancedMid list
  match shannonFanoRecursive fuel (list.take (mid + 1).toNat) codes Branch.Left [] with
  | none => none
  | some codes1 =>
    shannonFanoRecursive fuel (list.drop (mid + 1).toNat) codes1 Branch.Right []

/-! ## Notions used by the statements -/

/-- No symbol's code is a prefix of a different symbol's code. -/
def PrefixFree (codes : CodeMap) : Prop :=
  ∀ a ∈ qmapKeys codes, ∀ b ∈ qmapKeys codes, a ≠ b →
    ¬ (qmapValue codes a [] <+: qmapValue codes b [])

instance (codes : CodeMap) : Decidable (PrefixFree codes) := by
  unfold PrefixFree; infer_instance

/-- The number of code bits of the bytes of a buffer. -/
def totalBits (sourceData : QByteArray) (codes : CodeMap) : Nat :=
  (sourceData.map (fun c => (qmapValue codes c []).length)).sum

/-- The symbols of a frequency list, in list order. -/
def symbols (list : List Pair) : List Byte := list.map Prod.fst

/-- What a run of `shannonFanoRecursive` over `list` does to the table, from
`codes` to `codes1`, with `q` the bit path handed to it: entries of other
symbols are untouched, the keys gained are the symbols of `list`, every code
written starts with `q`, and among the symbols of `list` no code is a prefix
of the code of a different symbol. -/
def CodesExtend (list : List Pair) (codes codes1 : CodeMap) (q : CodeList) : Prop :=
  (∀ s, s ∉ symbols list → qmapValue codes1 s [] = qmapValue codes s []) ∧
  (∀ s, s ∈ qmapKeys codes1 ↔ s ∈ symbols list ∨ s ∈ qmapKeys codes) ∧
  (∀ s ∈ symbols list, q <+: qmapValue codes1 s []) ∧
  (∀ s ∈ symbols list, ∀ t ∈ symbols list, s ≠ t →
    ¬ (qmapValue codes1 s [] <+: qmapValue codes1 t []))

/-- Ties in first-seen order, in the words of the specification: any two
entries of `list` with equal counts stand in the order in which their symbols
are first met in the buffer `B`. -/
def TiesInFirstSeenOrder (B : QByteArray) (list : List Pair) : Prop :=
  list.Pairwise (fun x y => x.2 = y.2 → B.indexOf x.1 < B.indexOf y.1)

instance (B : QByteArray) (list : List Pair) : Decidable (TiesInFirstSeenOrder B list) := by
  unfold TiesInFirstSeenOrder; infer_instance

/-- The imbalance of the split of `list` behind index `m`, in the words of the
specification: the absolute difference between the sum of the counts at the
indices `0 .. m` and the sum of the counts at the indices `m + 1 .. n - 1`. -/
def imbalance (list : List Pair) (m : Nat) : Int :=
  |((list.take (m + 1)).map Prod.snd).sum - ((list.drop (m + 1)).map Prod.snd).sum|

/-- The lists that `shannonFanoRecursive` is called on when it is called on
`list`: `list` itself, and, unless `list` has exactly one entry, the lists
that the calls on `list.mid(0, mid + 1)` and on `list.mid(mid + 1)` are
called on. -/
inductive CallsOn : List Pair → List Pair → Prop where
  | self (list : List Pair) : CallsOn list list
  | left (list sub : List Pair) (h : list.length ≠ 1)
      (hs : CallsOn (list.take (balancedMid list + 1).toNat) sub) : CallsOn list sub
  | right (list sub : List Pair) (h : list.length ≠ 1)
      (hs : CallsOn (list.drop (balancedMid list + 1).toNat) sub) : CallsOn list sub

/-! ## Theorems -/


theorem and_pow_ne_zero (n i : Nat) : ((n &&& 2 ^ i) != 0) = n.testBit i := by
  rw [Nat.and_two_pow]
  cases n.testBit i <;> simp

theorem charBits_eq (c : Byte) :
    charBits c 8 1 = (List.range 8).map (fun i => c.val.testBit i) := by
  have h := and_pow_ne_zero c.val
  have h0 := h 0; have h1 := h 1; have h2 := h 2; have h3 := h 3
  have h4 := h 4; have h5 := h 5; have h6 := h 6; have h7 := h 7
  norm_num at h0 h1 h2 h3 h4 h5 h6 h7
  simp [charBits, List.range, List.range.loop, h0, h1, h2, h3, h4, h5, h6, h7]

theorem byteAssign_length (bytes : QByteArray) (i : Nat) (c : Byte) :
    (byteAssign bytes i c).length = max bytes.length (i + 1) := by
  unfold byteAssign
  split
  · simp; omega
  · simp; omega

theorem byteAssign_getD (bytes : QByteArray) (i j : Nat) (c : Byte)
    (hi : i ≤ bytes.length) :
    (byteAssign bytes i c).getD j 0 = if j = i then c else bytes.getD j 0 := by
  unfold byteAssign
  split
  · rename_i h
    simp only [List.getD_eq_getElem?_getD, List.getElem?_set]
    by_cases hj : j = i
    · subst hj; simp [h]
    · have : ¬ i = j := fun h => hj h.symm
      simp [hj, this]
  · rename_i h
    have hil : i = bytes.length := by omega
    subst hil
    simp only [List.getD_eq_getElem?_getD, Nat.sub_self, List.replicate_zero, List.append_nil]
    by_cases hj : j = bytes.length
    · subst hj; simp
    · simp only [hj, if_false]
      rcases Nat.lt_or_gt_of_ne hj with h1 | h1
      · rw [List.getElem?_append_left h1]
      · rw [List.getElem?_eq_none (by simp; omega), List.getElem?_eq_none (by omega)]


/-- State of the packing loop after the first `b` bits: the length of the
array and the bits it holds. -/
theorem bitsToBytes_inv (bits : List Bool) (b : Nat) (hb : b ≤ bits.length) :
    let bytes := (List.range b).foldl (bitsToBytesStep bits)
      (List.replicate (bits.length / 8) 0)
    bytes.length = max (bits.length / 8) ((b + 7) / 8) ∧
    ∀ j k, k < 8 → (bytes.getD j 0).val.testBit k =
      (decide (8 * j + k < b) && bits.getD (8 * j + k) false) := by
  induction b with
  | zero =>
    refine ⟨by simp, ?_⟩
    intro j k _
    simp only [List.range_zero, List.foldl_nil, List.getD_eq_getElem?_getD]
    by_cases hj : j < bits.length / 8
    · simp [List.getElem?_replicate, hj]
    · simp [List.getElem?_replicate, hj]
  | succ b ih =>
    have ih1 := ih (by omega)
    simp only [List.range_succ, List.foldl_append, List.foldl_cons, List.foldl_nil] at ih1 ⊢
    generalize (List.range b).foldl (bitsToBytesStep bits)
      (List.replicate (bits.length / 8) 0) = bytes at ih1 ⊢
    obtain ⟨hlen, hbits⟩ := ih1
    have hle : b / 8 ≤ bytes.length := by rw [hlen]; omega
    refine ⟨?_, ?_⟩
    · unfold bitsToBytesStep
      rw [byteAssign_length, hlen]
      omega
    · intro j k hk
      unfold bitsToBytesStep
      rw [byteAssign_getD _ _ _ _ hle]
      by_cases hj : j = b / 8
      · subst hj
        simp only [if_true, natToChar, byteAt]
        have hmod := Nat.testBit_mod_two_pow
          ((bytes.getD (b / 8) 0).val ||| (if bits.getD b false = true then 1 else 0) <<< (b % 8)) 8 k
        have h256 : (2 : Nat) ^ 8 = 256 := by norm_num
        rw [h256] at hmod
        rw [hmod, Nat.testBit_or, hbits _ k hk, Nat.testBit_shiftLeft]
        by_cases hkb : k = b % 8
        · have e1 : 8 * (b / 8) + k = b := by omega
          have e2 : k - b % 8 = 0 := by omega
          rw [e1, e2]
          have hk8 : b % 8 < 8 := by omega
          cases hbv : bits.getD b false <;> simp [hk, hkb, hk8]
        · have e1 : decide (8 * (b / 8) + k < b + 1) = decide (8 * (b / 8) + k < b) :=
            decide_eq_decide.mpr ⟨fun h => by omega, fun h => by omega⟩
          rw [e1]
          by_cases hge : k ≥ b % 8
          · have e2 : k - b % 8 ≠ 0 := by omega
            cases hbv : bits.getD b false <;>
              simp [hk, hge, Nat.testBit_one_eq_true_iff_self_eq_zero, e2]
          · simp [hk, hge]
      · simp only [hj, if_false]
        rw [hbits j k hk]
        have e1 : decide (8 * j + k < b + 1) = decide (8 * j + k < b) :=
          decide_eq_decide.mpr ⟨fun h => by omega, fun h => by omega⟩
        rw [e1]

theorem bitsToBytes_length (bits : List Bool) :
    (bitsToBytes bits).length = (bits.length + 7) / 8 := by
  have h := (bitsToBytes_inv bits bits.length (Nat.le_refl _)).1
  unfold bitsToBytes
  rw [h]; omega

theorem bitsToBytes_testBit (bits : List Bool) (j k : Nat) (hk : k < 8) :
    ((bitsToBytes bits).getD j 0).val.testBit k =
      (decide (8 * j + k < bits.length) && bits.getD (8 * j + k) false) :=
  (bitsToBytes_inv bits bits.length (Nat.le_refl _)).2 j k hk

theorem charBits_length (c : Byte) : (charBits c 8 1).length = 8 := by
  rw [charBits_eq]; simp

theorem bytesToBits_cons (c : Byte) (data : QByteArray) :
    bytesToBits (c :: data) = charBits c 8 1 ++ bytesToBits data := by
  simp [bytesToBits]

theorem bytesToBits_length (data : QByteArray) :
    (bytesToBits data).length = 8 * data.length := by
  induction data with
  | nil => simp [bytesToBits]
  | cons c data ih =>
    rw [bytesToBits_cons, List.length_append, charBits_length, ih, List.length_cons]
    omega

theorem bytesToBits_getD (data : QByteArray) (i : Nat) (hi : i < 8 * data.length) :
    (bytesToBits data).getD i false = (data.getD (i / 8) 0).val.testBit (i % 8) := by
  induction data generalizing i with
  | nil => simp at hi
  | cons c data ih =>
    rw [bytesToBits_cons]
    simp only [List.getD_eq_getElem?_getD] at ih ⊢
    by_cases h8 : i < 8
    · rw [List.getElem?_append_left (by rw [charBits_length]; exact h8)]
      have e0 : i / 8 = 0 := by omega
      have e1 : i % 8 = i := by omega
      rw [e0, e1, charBits_eq]
      simp [h8]
    · rw [List.getElem?_append_right (by rw [charBits_length]; omega), charBits_length]
      have hl : i - 8 < 8 * data.length := by simp at hi; omega
      rw [ih (i - 8) hl]
      have e0 : i / 8 = (i - 8) / 8 + 1 := by omega
      have e1 : (i - 8) % 8 = i % 8 := by omega
      rw [e0, e1]
      simp

/-- Unpacking the packed bits gives the bits back, followed by the zero bits
that fill the last byte. -/
theorem bytesToBits_bitsToBytes (bits : List Bool) :
    bytesToBits (bitsToBytes bits) =
      bits ++ List.replicate (8 * ((bits.length + 7) / 8) - bits.length) false := by
  apply List.ext_getElem
  · rw [bytesToBits_length, bitsToBytes_length]
    simp; omega
  · intro i h1 h2
    have hlt : i < 8 * (bitsToBytes bits).length := by
      rw [← bytesToBits_length]; exact h1
    have hg := bytesToBits_getD (bitsToBytes bits) i hlt
    rw [List.getD_eq_getElem?_getD, List.getElem?_eq_getElem h1, Option.getD_some] at hg
    rw [hg, bitsToBytes_testBit bits (i / 8) (i % 8) (by omega)]
    have e : 8 * (i / 8) + i % 8 = i := by omega
    rw [e]
    by_cases hin : i < bits.length
    · rw [List.getElem_append_left hin]
      simp [hin, List.getD_eq_getElem?_getD]
    · rw [List.getElem_append_right (by omega)]
      simp [hin]

theorem removeExtra_append (n : Nat) (l : List Bool) (x : Bool) :
    removeExtra n (l ++ List.replicate n x) = .ok l := by
  induction n with
  | zero => simp [removeExtra]
  | succ n ih =>
    have h : l ++ List.replicate (n + 1) x = (l ++ List.replicate n x) ++ [x] := by
      rw [List.replicate_succ', List.append_assoc]
    rw [h, removeExtra]
    simp only [List.isEmpty_eq_true, List.append_eq_nil, List.cons_ne_self, and_false, if_false,
      List.dropLast_concat]
    exact ih

theorem zipBits_foldl (codes : CodeMap) (B : QByteArray) (acc : List Bool) :
    B.foldl (fun list c => list ++ qmapValue codes c []) acc =
      acc ++ B.flatMap (fun c => qmapValue codes c []) := by
  induction B generalizing acc with
  | nil => simp
  | cons b B ih => simp [ih, List.append_assoc]

theorem zipBits_eq (B : QByteArray) (codes : CodeMap) :
    zipBits B codes = B.flatMap (fun c => qmapValue codes c []) := by
  unfold zipBits; rw [zipBits_foldl]; simp

theorem zipBits_length (B : QByteArray) (codes : CodeMap) :
    (zipBits B codes).length = totalBits B codes := by
  rw [zipBits_eq, totalBits]
  induction B with
  | nil => simp
  | cons b B ih => simp [ih]

theorem zip_eq (B : QByteArray) (codes : CodeMap) :
    zip B codes =
      natToChar (8 * (((zipBits B codes).length + 7) / 8) - (zipBits B codes).length) ::
        bitsToBytes (zipBits B codes) := by
  unfold zip byteAssign
  simp only [List.singleton_append, List.length_cons, Nat.zero_lt_succ, if_true, List.set_cons_zero,
    bitsToBytes_length]
  congr 1
  apply Fin.ext
  simp only [intToChar, natToChar]
  omega


theorem codeMatches_self (code rest : List Bool) :
    codeMatches (code ++ rest) code = .ok true := by
  induction code with
  | nil => cases rest <;> simp [codeMatches]
  | cons x code ih => simp [codeMatches, ih]

theorem codeMatches_other (p q rest : List Bool) (h1 : ¬ p <+: q) (h2 : ¬ q <+: p) :
    codeMatches (q ++ rest) p = .ok false := by
  induction p generalizing q with
  | nil => exact absurd (List.nil_prefix) h1
  | cons x p ih =>
    cases q with
    | nil => exact absurd (List.nil_prefix) h2
    | cons y q =>
      simp only [List.cons_append, codeMatches]
      by_cases hxy : y = x
      · subst hxy
        simp only [bne_self_eq_false, Bool.false_eq_true, if_false]
        apply ih
        · intro h; exact h1 ((List.cons_prefix_cons).mpr ⟨rfl, h⟩)
        · intro h; exact h2 ((List.cons_prefix_cons).mpr ⟨rfl, h⟩)
      · simp [hxy]

/-- One pass of the decoder on the bits of `b` followed by `rest` emits `b`. -/
theorem unzipPass_code (codes : CodeMap) (b : Byte) (rest : List Bool) (data : QByteArray)
    (keys : List Byte)
    (hpf : ∀ s ∈ keys, s ≠ b → ¬ (qmapValue codes s [] <+: qmapValue codes b []) ∧
      ¬ (qmapValue codes b [] <+: qmapValue codes s []))
    (hb : b ∈ keys) :
    unzipPass (keys.map (fun c => (qmapValue codes c [], c)))
      (qmapValue codes b [] ++ rest) data = .ok (rest, data ++ [b]) := by
  induction keys with
  | nil => simp at hb
  | cons s keys ih =>
    simp only [List.map_cons, unzipPass]
    by_cases hs : s = b
    · subst hs
      rw [codeMatches_self]
      simp
    · have h := hpf s (List.mem_cons_self _ _) hs
      rw [codeMatches_other _ _ _ h.1 h.2]
      simp only
      apply ih
      · intro t ht; exact hpf t (List.mem_cons_of_mem _ ht)
      · rcases List.mem_cons.mp hb with h | h
        · exact absurd h.symm hs
        · exact h

theorem unzipLoop_zipBits (codes : CodeMap) (hpf : PrefixFree codes)
    (hlen : ∀ c ∈ qmapKeys codes, 1 ≤ (qmapValue codes c []).length)
    (B : QByteArray) (hcov : ∀ b ∈ B, b ∈ qmapKeys codes)
    (fuel : Nat) (hfuel : B.length ≤ fuel) (data : QByteArray) :
    unzipLoop (unzipCodeList codes) fuel (zipBits B codes) data = .ok (data ++ B) := by
  induction B generalizing fuel data with
  | nil =>
    cases fuel <;> simp [zipBits, unzipLoop]
  | cons b B ih =>
    cases fuel with
    | zero => simp at hfuel
    | succ fuel =>
      have hbk : b ∈ qmapKeys codes := hcov b (List.mem_cons_self _ _)
      have hne : qmapValue codes b [] ≠ [] := by
        intro h
        have := hlen b hbk
        rw [h] at this; simp at this
      have hz : zipBits (b :: B) codes = qmapValue codes b [] ++ zipBits B codes := by
        simp [zipBits_eq]
      rw [hz, unzipLoop]
      have hnil : (qmapValue codes b [] ++ zipBits B codes).isEmpty = false := by
        cases hq : qmapValue codes b [] with
        | nil => exact absurd hq hne
        | cons x xs => rfl
      rw [hnil]
      simp only [Bool.false_eq_true, if_false]
      unfold unzipCodeList
      rw [unzipPass_code codes b (zipBits B codes) data (qmapKeys codes) _ hbk]
      · simp only
        have := ih (fun x hx => hcov x (List.mem_cons_of_mem _ hx)) fuel
          (by simp at hfuel; omega) (data ++ [b])
        unfold unzipCodeList at this
        rw [this]
        simp
      · intro s hs hsb
        exact ⟨hpf s hs b hbk hsb, hpf b hbk s hs (fun h => hsb h.symm)⟩

theorem natToChar_small (n : Nat) (h : n < 128) :
    (charVal (natToChar n)).toNat = n := by
  unfold charVal natToChar
  have : n % 256 = n := by omega
  simp [this, h]

/-- Decoder contract for any prefix-free table that covers the buffer. -/
theorem unzip_zip_general (codes : CodeMap) (hpf : PrefixFree codes)
    (hlen : ∀ c ∈ qmapKeys codes, 1 ≤ (qmapValue codes c []).length)
    (B : QByteArray) (hcov : ∀ b ∈ B, b ∈ qmapKeys codes)
    (fuel : Nat) (hfuel : B.length ≤ fuel) :
    unzip fuel (zip B codes) codes = .ok B := by
  rw [zip_eq]
  unfold unzip
  simp only [List.drop_succ_cons, List.drop_zero, List.take_succ_cons, List.take_zero, byteAt,
    List.getD_cons_zero]
  rw [natToChar_small _ (by omega), bytesToBits_bitsToBytes, removeExtra_append]
  simp only
  rw [unzipLoop_zipBits codes hpf hlen B hcov fuel hfuel]
  simp
theorem charVal_injective (a b : Byte) (h : charVal a = charVal b) : a = b := by
  unfold charVal at h
  apply Fin.ext
  have ha := a.isLt
  have hb := b.isLt
  split at h <;> split at h <;> omega

theorem charLt_irrefl (a : Byte) : charLt a a = false := by
  simp [charLt]

theorem charLt_trichotomy (a b : Byte) (h1 : charLt a b = false) (h2 : charLt b a = false) :
    a = b := by
  simp only [charLt, decide_eq_false_iff_not, not_lt] at h1 h2
  exact charVal_injective a b (le_antisymm h2 h1)

theorem charLt_trans (a b c : Byte) (h1 : charLt a b = true) (h2 : charLt b c = true) :
    charLt a c = true := by
  simp only [charLt, decide_eq_true_eq] at *
  omega

theorem qmapValue_insert {κ α : Type} [DecidableEq κ] (lt : κ → κ → Bool)
    (hirr : ∀ a, lt a a = false)
    (htri : ∀ a b, lt a b = false → lt b a = false → a = b)
    (k : κ) (v : α) (m : List (κ × α)) (k1 : κ) (d : α) :
    qmapValue (qmapInsert lt k v m) k1 d = if k1 = k then v else qmapValue m k1 d := by
  induction m with
  | nil =>
    by_cases h : k1 = k
    · subst h; simp [qmapInsert, qmapValue]
    · have h2 : ¬ k = k1 := fun e => h e.symm
      simp [qmapInsert, qmapValue, h, h2]
  | cons p m ih =>
    obtain ⟨k2, v2⟩ := p
    simp only [qmapInsert]
    by_cases hlt : lt k k2 = true
    · simp only [hlt, if_true]
      by_cases h : k1 = k
      · subst h; simp [qmapValue]
      · have h2 : ¬ k = k1 := fun e => h e.symm
        simp [qmapValue, h, h2]
    · simp only [hlt, Bool.false_eq_true, if_false]
      by_cases hgt : lt k2 k = true
      · simp only [hgt, if_true]
        have hne : k2 ≠ k := by
          intro e; subst e; rw [hirr] at hgt; exact Bool.false_ne_true hgt
        by_cases h : k1 = k
        · subst h; simp [qmapValue, hne, ih]
        · simp only [qmapValue, ih, h, if_false]
      · simp only [hgt, Bool.false_eq_true, if_false]
        have He : k = k2 := htri k k2 (by simpa using hlt) (by simpa using hgt)
        subst He
        by_cases h : k1 = k
        · subst h; simp [qmapValue]
        · have h2 : ¬ k = k1 := fun e => h e.symm
          simp [qmapValue, h, h2]

theorem qmapKeys_insert {κ α : Type} (lt : κ → κ → Bool)
    (htri : ∀ a b, lt a b = false → lt b a = false → a = b)
    (k : κ) (v : α) (m : List (κ × α)) (k1 : κ) :
    k1 ∈ qmapKeys (qmapInsert lt k v m) ↔ k1 = k ∨ k1 ∈ qmapKeys m := by
  induction m with
  | nil => simp [qmapInsert, qmapKeys]
  | cons p m ih =>
    obtain ⟨k2, v2⟩ := p
    simp only [qmapInsert]
    by_cases hlt : lt k k2 = true
    · simp [hlt, qmapKeys]
    · simp only [hlt, Bool.false_eq_true, if_false]
      by_cases hgt : lt k2 k = true
      · simp only [hgt, if_true]
        simp only [qmapKeys, List.map_cons, List.mem_cons] at ih ⊢
        rw [ih]
        tauto
      · simp only [hgt, Bool.false_eq_true, if_false]
        have He : k = k2 := htri k k2 (by simpa using hlt) (by simpa using hgt)
        subst He
        simp [qmapKeys]

theorem qmapValues_insert_subset {κ α : Type} (lt : κ → κ → Bool)
    (k : κ) (v : α) (m : List (κ × α)) (x : α)
    (hx : x ∈ qmapValues (qmapInsert lt k v m)) : x = v ∨ x ∈ qmapValues m := by
  induction m with
  | nil => simpa [qmapInsert, qmapValues] using hx
  | cons p m ih =>
    obtain ⟨k2, v2⟩ := p
    simp only [qmapInsert] at hx
    split at hx
    · simp only [qmapValues, List.map_cons, List.mem_cons] at hx ⊢
      tauto
    · split at hx
      · simp only [qmapValues, List.map_cons, List.mem_cons] at hx ih ⊢
        rcases hx with h | h
        · exact Or.inr (Or.inl h)
        · rcases ih h with h | h
          · exact Or.inl h
          · exact Or.inr (Or.inr h)
      · simp only [qmapValues, List.map_cons, List.mem_cons] at hx ⊢
        tauto

theorem qmapInsert_ne_nil {κ α : Type} (lt : κ → κ → Bool)
    (k : κ) (v : α) (m : List (κ × α)) : qmapInsert lt k v m ≠ [] := by
  cases m with
  | nil => simp [qmapInsert]
  | cons p m =>
    obtain ⟨k2, v2⟩ := p
    simp only [qmapInsert]
    split
    · simp
    · split <;> simp

/-- The map of `balancedMid` after `n` rounds, whatever the keys are, holds
only indices below `n`, and is not empty once a round has run. -/
theorem balancedMidMap_values (f : Nat → Int) (n : Nat) :
    let map := (List.range n).foldl
      (fun map i => qmapInsert intLt (f i) (i : Int) map) []
    (∀ x ∈ qmapValues map, 0 ≤ x ∧ x < (n : Int)) ∧ (0 < n → map ≠ []) := by
  induction n with
  | zero => simp [qmapValues]
  | succ n ih =>
    simp only [List.range_succ, List.foldl_append, List.foldl_cons, List.foldl_nil]
    refine ⟨?_, fun _ => qmapInsert_ne_nil _ _ _ _⟩
    intro x hx
    rcases qmapValues_insert_subset _ _ _ _ _ hx with h | h
    · subst h; push_cast; omega
    · have := ih.1 x h
      push_cast; omega

theorem balancedMid_range (list : List Pair) (h : 2 ≤ list.length) :
    0 ≤ balancedMid list ∧ balancedMid list + 2 ≤ (list.length : Int) := by
  have hne : list.isEmpty = false := by
    cases list with
    | nil => simp at h
    | cons _ _ => rfl
  have hlt : ¬ list.length < 2 := by omega
  unfold balancedMid
  simp only [hne, Bool.false_eq_true, if_false, hlt]
  have hm := balancedMidMap_values (splitKey list) (list.length - 1)
  simp only at hm
  obtain ⟨hv, hn⟩ := hm
  have hn1 := hn (by omega)
  unfold balancedMidMap
  generalize (List.range (list.length - 1)).foldl
    (fun map i => qmapInsert intLt (splitKey list i) (i : Int) map) [] = map
    at hv hn1
  cases map with
  | nil => exact absurd rfl hn1
  | cons p map =>
    have := hv p.2 (by simp [qmapValues])
    simp only [qmapValues, List.map_cons, List.headD_cons]
    omega

theorem shannonFanoRecursive_nil (fuel : Nat) (codes : CodeMap) (branch : Branch)
    (parent : CodeList) : shannonFanoRecursive fuel [] codes branch parent = none := by
  induction fuel generalizing codes branch parent with
  | zero => rfl
  | succ fuel ih =>
    simp [shannonFanoRecursive, ih]

theorem split_prefix_ne (q a b : List Bool) (x y : Bool) (hxy : x ≠ y)
    (ha : q ++ [x] <+: a) (hb : q ++ [y] <+: b) : ¬ a <+: b := by
  intro hab
  obtain ⟨a1, rfl⟩ := ha
  obtain ⟨b1, rfl⟩ := hb
  obtain ⟨c, hc⟩ := hab
  simp only [List.append_assoc, List.singleton_append, List.cons_append,
    List.append_cancel_left_eq, List.cons.injEq] at hc
  exact hxy hc.1

theorem codesExtend_single (s : Byte) (n : Int) (codes : CodeMap) (q : CodeList) :
    CodesExtend [(s, n)] codes (qmapInsert charLt s q codes) q := by
  refine ⟨?_, ?_, ?_, ?_⟩
  · intro t ht
    have : t ≠ s := by simpa [symbols] using ht
    rw [qmapValue_insert charLt charLt_irrefl charLt_trichotomy]
    simp [this]
  · intro t
    rw [qmapKeys_insert charLt charLt_trichotomy]
    simp [symbols]
  · intro t ht
    have : t = s := by simpa [symbols] using ht
    subst this
    rw [qmapValue_insert charLt charLt_irrefl charLt_trichotomy]
    simp
  · intro a ha b hb hab
    have h1 : a = s := by simpa [symbols] using ha
    have h2 : b = s := by simpa [symbols] using hb
    exact absurd (h1.trans h2.symm) hab

theorem codesExtend_append (l r : List Pair) (codes c1 c2 : CodeMap) (q : CodeList)
    (hnd : (symbols (l ++ r)).Nodup)
    (hl : CodesExtend l codes c1 (q ++ [false]))
    (hr : CodesExtend r c1 c2 (q ++ [true])) :
    CodesExtend (l ++ r) codes c2 q := by
  obtain ⟨hl1, hl2, hl3, hl4⟩ := hl
  obtain ⟨hr1, hr2, hr3, hr4⟩ := hr
  have hsym : symbols (l ++ r) = symbols l ++ symbols r := by simp [symbols]
  rw [hsym] at hnd
  unfold CodesExtend
  rw [hsym]
  have hdis : ∀ s, s ∈ symbols l → s ∉ symbols r := fun s h1 h2 =>
    (List.nodup_append.mp hnd).2.2 h1 h2
  have hql : ∀ s ∈ symbols l, q ++ [false] <+: qmapValue c2 s [] := by
    intro s hs
    rw [hr1 s (hdis s hs)]
    exact hl3 s hs
  refine ⟨?_, ?_, ?_, ?_⟩
  · intro s hs
    simp only [List.mem_append, not_or] at hs
    rw [hr1 s hs.2, hl1 s hs.1]
  · intro s
    rw [hr2, hl2, List.mem_append]
    tauto
  · intro s hs
    rcases List.mem_append.mp hs with h | h
    · exact (List.prefix_append q [false]).trans (hql s h)
    · exact (List.prefix_append q [true]).trans (hr3 s h)
  · intro s hs t ht hst
    rcases List.mem_append.mp hs with h | h <;> rcases List.mem_append.mp ht with h' | h'
    · rw [hr1 s (hdis s h), hr1 t (hdis t h')]
      exact hl4 s h t h' hst
    · exact split_prefix_ne q _ _ false true (by decide) (hql s h) (hr3 t h')
    · exact split_prefix_ne q _ _ true false (by decide) (hr3 s h) (hql t h')
    · exact hr4 s h t h' hst

/-- Partial correctness of `shannonFanoRecursive`. -/
theorem shannonFanoRecursive_spec (fuel : Nat) (list : List Pair) (codes : CodeMap)
    (branch : Branch) (parent : CodeList) (codes1 : CodeMap)
    (hnd : (symbols list).Nodup)
    (h : shannonFanoRecursive fuel list codes branch parent = some codes1) :
    CodesExtend list codes codes1
      (parent ++ [if Branch.Left = branch then false else true]) := by
  induction fuel generalizing list codes branch parent codes1 with
  | zero => simp [shannonFanoRecursive] at h
  | succ fuel ih =>
    rw [shannonFanoRecursive] at h
    simp only at h
    split at h
    · rename_i hlen
      obtain ⟨p, rfl⟩ := List.length_eq_one.mp hlen
      obtain ⟨s, n⟩ := p
      simp only [List.headD_cons, Option.some.injEq] at h
      subst h
      exact codesExtend_single s n codes _
    · split at h
      · simp at h
      · rename_i c1 hc1
        have hsplit := List.take_append_drop (balancedMid list + 1).toNat list
        have hnd2 : (symbols (list.take (balancedMid list + 1).toNat ++
            list.drop (balancedMid list + 1).toNat)).Nodup := by rw [hsplit]; exact hnd
        have hndl : (symbols (list.take (balancedMid list + 1).toNat)).Nodup := by
          have := hnd2
          simp only [symbols, List.map_append] at this
          exact (List.nodup_append.mp this).1
        have hndr : (symbols (list.drop (balancedMid list + 1).toNat)).Nodup := by
          have := hnd2
          simp only [symbols, List.map_append] at this
          exact (List.nodup_append.mp this).2.1
        have e1 := ih _ _ _ _ _ hndl hc1
        have e2 := ih _ _ _ _ _ hndr h
        have := codesExtend_append _ _ _ _ _ _ hnd2 e1 e2
        rw [hsplit] at this
        exact this

theorem shannonFanoRecursive_total (fuel : Nat) (list : List Pair) (codes : CodeMap)
    (branch : Branch) (parent : CodeList) (h1 : 1 ≤ list.length) (hf : list.length ≤ fuel) :
    ∃ codes1, shannonFanoRecursive fuel list codes branch parent = some codes1 := by
  induction fuel generalizing list codes branch parent with
  | zero => omega
  | succ fuel ih =>
    rw [shannonFanoRecursive]
    simp only
    split
    · exact ⟨_, rfl⟩
    · rename_i hlen
      have h2 : 2 ≤ list.length := by omega
      have hr := balancedMid_range list h2
      have hL : (list.take (balancedMid list + 1).toNat).length = (balancedMid list + 1).toNat := by
        rw [List.length_take]; omega
      have hR : (list.drop (balancedMid list + 1).toNat).length =
          list.length - (balancedMid list + 1).toNat := by
        rw [List.length_drop]
      obtain ⟨c1, hc1⟩ := ih (list.take (balancedMid list + 1).toNat) codes Branch.Left
        (parent ++ [if Branch.Left = branch then false else true]) (by omega) (by omega)
      rw [hc1]
      exact ih _ _ _ _ (by omega) (by omega)

theorem shannonFanoRecursive_mono (fuel : Nat) (list : List Pair) (codes : CodeMap)
    (branch : Branch) (parent : CodeList) (codes1 : CodeMap)
    (h : shannonFanoRecursive fuel list codes branch parent = some codes1) :
    shannonFanoRecursive (fuel + 1) list codes branch parent = some codes1 := by
  induction fuel generalizing list codes branch parent codes1 with
  | zero => simp [shannonFanoRecursive] at h
  | succ fuel ih =>
    rw [shannonFanoRecursive] at h ⊢
    simp only at h ⊢
    split
    · rename_i hlen; simpa [hlen] using h
    · rename_i hlen
      simp only [hlen, if_false] at h
      split at h
      · simp at h
      · rename_i c1 hc1
        rw [ih _ _ _ _ _ hc1]
        exact ih _ _ _ _ _ h

theorem shannonFanoRecursive_mono_le (fuel fuel1 : Nat) (hle : fuel ≤ fuel1) (list : List Pair)
    (codes : CodeMap) (branch : Branch) (parent : CodeList) (codes1 : CodeMap)
    (h : shannonFanoRecursive fuel list codes branch parent = some codes1) :
    shannonFanoRecursive fuel1 list codes branch parent = some codes1 := by
  induction hle with
  | refl => exact h
  | step _ ih => exact shannonFanoRecursive_mono _ _ _ _ _ _ ih
theorem codesExtend_append_length (l r : List Pair) (codes c1 c2 : CodeMap) (q : CodeList)
    (hnd : (symbols (l ++ r)).Nodup)
    (hl : CodesExtend l codes c1 (q ++ [false]))
    (hr : CodesExtend r c1 c2 (q ++ [true])) :
    ∀ s ∈ symbols (l ++ r), q.length + 1 ≤ (qmapValue c2 s []).length := by
  have hsym : symbols (l ++ r) = symbols l ++ symbols r := by simp [symbols]
  rw [hsym] at hnd ⊢
  intro s hs
  rcases List.mem_append.mp hs with h | h
  · have hnr : s ∉ symbols r := fun h2 => (List.nodup_append.mp hnd).2.2 h h2
    have := (hl.2.2.1 s h).length_le
    rw [hr.1 s hnr]
    simpa using this
  · have := (hr.2.2.1 s h).length_le
    simpa using this

/-- Partial correctness of `shannonFano`: what it writes into the table. -/
theorem shannonFano_spec (fuel : Nat) (list : List Pair) (codes T : CodeMap)
    (hnd : (symbols list).Nodup) (h : shannonFano fuel list codes = some T) :
    CodesExtend list codes T [] ∧
      ∀ s ∈ symbols list, 1 ≤ (qmapValue T s []).length := by
  unfold shannonFano at h
  simp only at h
  split at h
  · simp at h
  · rename_i c1 hc1
    have hsplit := List.take_append_drop (balancedMid list + 1).toNat list
    have hnd2 : (symbols (list.take (balancedMid list + 1).toNat ++
        list.drop (balancedMid list + 1).toNat)).Nodup := by rw [hsplit]; exact hnd
    have hndl : (symbols (list.take (balancedMid list + 1).toNat)).Nodup := by
      have := hnd2
      simp only [symbols, List.map_append] at this
      exact (List.nodup_append.mp this).1
    have hndr : (symbols (list.drop (balancedMid list + 1).toNat)).Nodup := by
      have := hnd2
      simp only [symbols, List.map_append] at this
      exact (List.nodup_append.mp this).2.1
    have e1 := shannonFanoRecursive_spec _ _ _ _ _ _ hndl hc1
    have e2 := shannonFanoRecursive_spec _ _ _ _ _ _ hndr h
    simp only [if_true, List.nil_append] at e1
    have e2b : CodesExtend (list.drop (balancedMid list + 1).toNat) c1 T ([] ++ [true]) := by
      simpa using e2
    have e1b : CodesExtend (list.take (balancedMid list + 1).toNat) codes c1 ([] ++ [false]) := by
      simpa using e1
    have r1 := codesExtend_append _ _ _ _ _ _ hnd2 e1b e2b
    have r2 := codesExtend_append_length _ _ _ _ _ _ hnd2 e1b e2b
    rw [hsplit] at r1 r2
    exact ⟨r1, by simpa using r2⟩

theorem prefixFree_of_codesExtend (list : List Pair) (T : CodeMap) (q : CodeList)
    (h : CodesExtend list [] T q) : PrefixFree T := by
  intro a ha b hb hab
  have ha1 : a ∈ symbols list := by
    have := (h.2.1 a).mp ha
    simpa [qmapKeys] using this
  have hb1 : b ∈ symbols list := by
    have := (h.2.1 b).mp hb
    simpa [qmapKeys] using this
  exact h.2.2.2 a ha1 b hb1 hab

theorem keys_of_codesExtend (list : List Pair) (T : CodeMap) (q : CodeList)
    (h : CodesExtend list [] T q) (s : Byte) : s ∈ qmapKeys T ↔ s ∈ symbols list := by
  rw [h.2.1 s]; simp [qmapKeys]

theorem shannonFano_total (fuel : Nat) (list : List Pair) (codes : CodeMap)
    (h2 : 2 ≤ list.length) (hf : list.length ≤ fuel) :
    ∃ T, shannonFano fuel list codes = some T := by
  unfold shannonFano
  simp only
  have hr := balancedMid_range list h2
  obtain ⟨c1, hc1⟩ := shannonFanoRecursive_total fuel (list.take (balancedMid list + 1).toNat)
    codes Branch.Left [] (by rw [List.length_take]; omega) (by rw [List.length_take]; omega)
  rw [hc1]
  exact shannonFanoRecursive_total fuel _ _ _ _ (by rw [List.length_drop]; omega)
    (by rw [List.length_drop]; omega)

theorem shannonFano_mono_le (fuel fuel1 : Nat) (hle : fuel ≤ fuel1) (list : List Pair)
    (codes T : CodeMap) (h : shannonFano fuel list codes = some T) :
    shannonFano fuel1 list codes = some T := by
  unfold shannonFano at h ⊢
  simp only at h ⊢
  split at h
  · simp at h
  · rename_i c1 hc1
    rw [shannonFanoRecursive_mono_le fuel fuel1 hle _ _ _ _ _ hc1]
    exact shannonFanoRecursive_mono_le fuel fuel1 hle _ _ _ _ _ h

/-- With fewer than two entries `shannonFano` reaches a call of
`shannonFanoRecursive` on an empty list, which never returns. -/
theorem shannonFano_short (fuel : Nat) (list : List Pair) (codes : CodeMap)
    (h : list.length < 2) : shannonFano fuel list codes = none := by
  unfold shannonFano
  simp only
  match list, h with
  | [], _ =>
    simp [shannonFanoRecursive_nil]
  | [p], _ =>
    have hm : balancedMid [p] = 0 := by simp [balancedMid]
    rw [hm]
    simp only [zero_add, Int.toNat_one, List.take_succ_cons, List.take_zero, List.drop_succ_cons,
      List.drop_zero, shannonFanoRecursive_nil]
    split <;> rfl

/-- The table of a frequency list with at least two entries. -/
theorem shannonFano_table (list : List Pair) (codes : CodeMap) (h2 : 2 ≤ list.length) :
    ∃ T, ∀ fuel, list.length ≤ fuel → shannonFano fuel list codes = some T := by
  obtain ⟨T, hT⟩ := shannonFano_total list.length list codes h2 (Nat.le_refl _)
  exact ⟨T, fun fuel hf => shannonFano_mono_le _ _ hf _ _ _ hT⟩
theorem set_cons_perm {α : Type} (l : List α) (j : Nat) (b x : α) (h : l[j]? = some b) :
    (b :: l.set j x).Perm (x :: l) := by
  induction l generalizing j with
  | nil => simp at h
  | cons y l ih =>
    cases j with
    | zero =>
      simp only [List.getElem?_cons_zero, Option.some.injEq] at h
      subst h
      simp only [List.set_cons_zero]
      exact List.Perm.swap _ _ _
    | succ j =>
      simp only [List.getElem?_cons_succ] at h
      simp only [List.set_cons_succ]
      exact (List.Perm.swap _ _ _).trans (((ih j h).cons y).trans (List.Perm.swap _ _ _))

theorem set_set_perm {α : Type} (l : List α) (i j : Nat) (a b : α)
    (hi : l[i]? = some a) (hj : l[j]? = some b) : ((l.set i b).set j a).Perm l := by
  induction l generalizing i j with
  | nil => simp at hi
  | cons x l ih =>
    cases i with
    | zero =>
      simp only [List.getElem?_cons_zero, Option.some.injEq] at hi
      subst hi
      cases j with
      | zero =>
        simp only [List.getElem?_cons_zero, Option.some.injEq] at hj
        subst hj
        simp
      | succ j =>
        simp only [List.getElem?_cons_succ] at hj
        simp only [List.set_cons_zero, List.set_cons_succ]
        exact set_cons_perm l j b x hj
    | succ i =>
      simp only [List.getElem?_cons_succ] at hi
      cases j with
      | zero =>
        simp only [List.getElem?_cons_zero, Option.some.injEq] at hj
        subst hj
        simp only [List.set_cons_zero, List.set_cons_succ]
        exact set_cons_perm l i a x hi
      | succ j =>
        simp only [List.getElem?_cons_succ] at hj
        simp only [List.set_cons_succ]
        exact (ih i j hi hj).cons x

theorem qSwap_perm {α : Type} (l : List α) (i j : Nat) : (qSwap l i j).Perm l := by
  unfold qSwap
  split
  · rename_i a b hi hj
    exact set_set_perm l i j a b hi hj
  · exact List.Perm.refl _

theorem qSwap_length {α : Type} (l : List α) (i j : Nat) : (qSwap l i j).length = l.length :=
  (qSwap_perm l i j).length_eq

theorem partitionLoop_perm {α : Type} (lessThan : α → α → Bool) (e n : Nat) (l : List α)
    (low high : Nat) : (partitionLoop lessThan e n l low high).1.Perm l := by
  induction n generalizing l low high with
  | zero => exact List.Perm.refl _
  | succ n ih =>
    rw [partitionLoop]
    simp only
    split
    · split
      · exact (ih _ _ _).trans (qSwap_perm _ _ _)
      · exact List.Perm.refl _
    · exact List.Perm.refl _

theorem take_mid_drop {α : Type} (l : List α) (k : Nat) :
    l.take k ++ (l.drop k).take 1 ++ l.drop (k + 1) = l := by
  have h1 : l.drop (k + 1) = (l.drop k).drop 1 := by
    rw [List.drop_drop]
  rw [h1, List.append_assoc, List.take_append_drop, List.take_append_drop]

theorem qSortHelper_perm {α : Type} (lessThan : α → α → Bool) (fuel : Nat) (l : List α) :
    (qSortHelper lessThan fuel l).Perm l := by
  induction fuel generalizing l with
  | zero => exact List.Perm.refl _
  | succ fuel ih =>
    rw [qSortHelper]
    simp only
    have hc : ∀ (c : Bool) (l1 l2 : List α), l1.Perm l → l2.Perm l →
        (if c then l1 else l2).Perm l := by
      intro c l1 l2 h1 h2; cases c <;> simp [h1, h2]
    have p1 : (if lessAt lessThan l (l.length - 1) 0 then qSwap l (l.length - 1) 0 else l).Perm l :=
      hc _ _ _ (qSwap_perm _ _ _) (List.Perm.refl _)
    generalize (if lessAt lessThan l (l.length - 1) 0 then qSwap l (l.length - 1) 0 else l) = l1
      at p1 ⊢
    have p2 : (if lessAt lessThan l1 (l.length / 2) 0 then qSwap l1 (l.length / 2) 0
        else l1).Perm l := hc _ _ _ ((qSwap_perm _ _ _).trans p1) p1
    generalize (if lessAt lessThan l1 (l.length / 2) 0 then qSwap l1 (l.length / 2) 0
        else l1) = l2 at p2 ⊢
    have p3 : (if lessAt lessThan l2 (l.length - 1) (l.length / 2) then
        qSwap l2 (l.length - 1) (l.length / 2) else l2).Perm l :=
      hc _ _ _ ((qSwap_perm _ _ _).trans p2) p2
    generalize (if lessAt lessThan l2 (l.length - 1) (l.length / 2) then
        qSwap l2 (l.length - 1) (l.length / 2) else l2) = l3 at p3 ⊢
    split
    · exact List.Perm.refl _
    · split
      · exact p1
      · split
        · exact p3
        · have p4 : (qSwap l3 (l.length / 2) (l.length - 1)).Perm l :=
            (qSwap_perm _ _ _).trans p3
          generalize qSwap l3 (l.length / 2) (l.length - 1) = l4 at p4 ⊢
          have p5 := (partitionLoop_perm lessThan (l.length - 1) l.length l4 0
            (l.length - 1 - 1)).trans p4
          generalize partitionLoop lessThan (l.length - 1) l.length l4 0 (l.length - 1 - 1) = r
            at p5 ⊢
          generalize (if lessAt lessThan r.1 r.2 (l.length - 1) then r.2 + 1 else r.2) = low
          have p6 : (qSwap r.1 (l.length - 1) low).Perm l := (qSwap_perm _ _ _).trans p5
          generalize qSwap r.1 (l.length - 1) low = l6 at p6 ⊢
          refine List.Perm.trans ?_ ((take_mid_drop l6 low) ▸ p6)
          exact ((ih _).append (List.Perm.refl _)).append (ih _)

theorem qSort_perm {α : Type} (lessThan : α → α → Bool) (l : List α) :
    (qSort lessThan l).Perm l := qSortHelper_perm lessThan l.length l
theorem qmapContains_iff {κ α : Type} [DecidableEq κ] (m : List (κ × α)) (k : κ) :
    qmapContains m k = true ↔ k ∈ qmapKeys m := by
  induction m with
  | nil => simp [qmapContains, qmapKeys]
  | cons p m ih =>
    obtain ⟨k1, v1⟩ := p
    simp only [qmapContains, qmapKeys, List.map_cons, List.mem_cons] at ih ⊢
    by_cases h : k1 = k
    · simp [h]
    · have h2 : ¬ k = k1 := fun e => h e.symm
      simp [h, h2, ih]

theorem qmapInsert_sorted {κ α : Type} (lt : κ → κ → Bool)
    (htri : ∀ a b, lt a b = false → lt b a = false → a = b)
    (htrans : ∀ a b c, lt a b = true → lt b c = true → lt a c = true)
    (k : κ) (v : α) (m : List (κ × α))
    (hs : (qmapKeys m).Pairwise (fun a b => lt a b = true)) :
    (qmapKeys (qmapInsert lt k v m)).Pairwise (fun a b => lt a b = true) := by
  induction m with
  | nil => simp [qmapInsert, qmapKeys]
  | cons p m ih =>
    obtain ⟨k2, v2⟩ := p
    have hs2 : (∀ x ∈ qmapKeys m, lt k2 x = true) ∧
        (qmapKeys m).Pairwise (fun a b => lt a b = true) := by
      simpa [qmapKeys] using hs
    simp only [qmapInsert]
    by_cases hlt : lt k k2 = true
    · simp only [hlt, if_true]
      have : qmapKeys ((k, v) :: (k2, v2) :: m) = k :: qmapKeys ((k2, v2) :: m) := rfl
      rw [this, List.pairwise_cons]
      refine ⟨?_, hs⟩
      intro x hx
      have hx2 : x = k2 ∨ x ∈ qmapKeys m := by simpa [qmapKeys] using hx
      rcases hx2 with h | h
      · rw [h]; exact hlt
      · exact htrans _ _ _ hlt (hs2.1 x h)
    · simp only [hlt, Bool.false_eq_true, if_false]
      by_cases hgt : lt k2 k = true
      · simp only [hgt, if_true]
        have : qmapKeys ((k2, v2) :: qmapInsert lt k v m) = k2 :: qmapKeys (qmapInsert lt k v m) :=
          rfl
        rw [this, List.pairwise_cons]
        refine ⟨?_, ih hs2.2⟩
        intro x hx
        rcases (qmapKeys_insert lt htri k v m x).mp hx with h | h
        · rw [h]; exact hgt
        · exact hs2.1 x h
      · simp only [hgt, Bool.false_eq_true, if_false]
        have He : k = k2 := htri k k2 (by simpa using hlt) (by simpa using hgt)
        subst He
        exact hs

theorem qmapValue_of_mem {κ α : Type} [DecidableEq κ] (lt : κ → κ → Bool)
    (hirr : ∀ a, lt a a = false) (m : List (κ × α))
    (hs : (qmapKeys m).Pairwise (fun a b => lt a b = true))
    (k : κ) (v d : α) (h : (k, v) ∈ m) : qmapValue m k d = v := by
  induction m with
  | nil => simp at h
  | cons p m ih =>
    obtain ⟨k1, v1⟩ := p
    have hs2 : (∀ x ∈ qmapKeys m, lt k1 x = true) ∧
        (qmapKeys m).Pairwise (fun a b => lt a b = true) := by
      simpa [qmapKeys] using hs
    rcases List.mem_cons.mp h with h1 | h1
    · simp only [Prod.mk.injEq] at h1
      simp [qmapValue, h1.1, h1.2]
    · have hk : k ∈ qmapKeys m := by
        simp only [qmapKeys, List.mem_map]
        exact ⟨(k, v), h1, rfl⟩
      have hne : k1 ≠ k := by
        intro e
        have := hs2.1 k hk
        rw [e, hirr] at this
        exact Bool.false_ne_true this
      simp only [qmapValue, hne, if_false]
      exact ih hs2.2 h1

theorem mem_of_qmapKeys {κ α : Type} [DecidableEq κ] (m : List (κ × α)) (k : κ) (d : α)
    (h : k ∈ qmapKeys m) : (k, qmapValue m k d) ∈ m := by
  induction m with
  | nil => simp [qmapKeys] at h
  | cons p m ih =>
    obtain ⟨k1, v1⟩ := p
    by_cases h1 : k1 = k
    · subst h1; simp [qmapValue]
    · have hk : k ∈ qmapKeys m := by
        have h2 : ¬ k = k1 := fun e => h1 e.symm
        simpa [qmapKeys, h2] using h
      simp only [qmapValue, h1, if_false]
      exact List.mem_cons_of_mem _ (ih hk)

/-- The frequency map after the chars of `B` have been counted: its keys are
in ascending order, they are the chars of `B`, and each is mapped to itself
paired with its number of occurrences. -/
theorem frequencies_inv (X B : QByteArray) (m : List (Byte × Pair))
    (hs : (qmapKeys m).Pairwise (fun a b => charLt a b = true))
    (hk : ∀ c, c ∈ qmapKeys m ↔ c ∈ B)
    (hv : ∀ c ∈ B, qmapValue m c (0, 0) = (c, (B.count c : Int))) :
    let m1 := X.foldl buildListStep m
    (qmapKeys m1).Pairwise (fun a b => charLt a b = true) ∧
    (∀ c, c ∈ qmapKeys m1 ↔ c ∈ B ++ X) ∧
    (∀ c ∈ B ++ X, qmapValue m1 c (0, 0) = (c, ((B ++ X).count c : Int))) := by
  induction X generalizing B m with
  | nil => simpa using ⟨hs, hk, hv⟩
  | cons x X ih =>
    simp only [List.foldl_cons]
    have key : (qmapKeys (buildListStep m x)).Pairwise (fun a b => charLt a b = true) ∧
        (∀ c, c ∈ qmapKeys (buildListStep m x) ↔ c ∈ B ++ [x]) ∧
        (∀ c ∈ B ++ [x], qmapValue (buildListStep m x) c (0, 0) =
          (c, ((B ++ [x]).count c : Int))) := by
      unfold buildListStep
      by_cases hc : qmapContains m x = true
      · have hxB : x ∈ B := (hk x).mp ((qmapContains_iff m x).mp hc)
        simp only [hc, Bool.not_true, Bool.false_eq_true, if_false]
        refine ⟨qmapInsert_sorted charLt charLt_trichotomy charLt_trans _ _ _ hs, ?_, ?_⟩
        · intro c
          rw [qmapKeys_insert charLt charLt_trichotomy, hk]
          simp only [List.mem_append, List.mem_singleton]
          constructor
          · rintro (h | h)
            · exact Or.inr h
            · exact Or.inl h
          · rintro (h | h)
            · exact Or.inr h
            · subst h; exact Or.inr hxB
        · intro c hcm
          rw [qmapValue_insert charLt charLt_irrefl charLt_trichotomy]
          by_cases hcx : c = x
          · subst hcx
            rw [if_pos rfl, hv c hxB]
            simp
          · have hcB : c ∈ B := by
              rcases List.mem_append.mp hcm with h | h
              · exact h
              · exact absurd (List.mem_singleton.mp h) hcx
            have hxc : ¬ x = c := fun e => hcx e.symm
            rw [if_neg hcx, hv c hcB]
            have h0 : List.count c [x] = 0 :=
              List.count_eq_zero_of_not_mem (by simpa using hcx)
            simp [h0]
      · have hxB : x ∉ B := fun h =>
          hc ((qmapContains_iff m x).mpr ((hk x).mpr h))
        have hc2 : qmapContains m x = false := by simpa using hc
        simp only [hc2, Bool.not_false, if_true]
        refine ⟨qmapInsert_sorted charLt charLt_trichotomy charLt_trans _ _ _ hs, ?_, ?_⟩
        · intro c
          rw [qmapKeys_insert charLt charLt_trichotomy, hk]
          simp only [List.mem_append, List.mem_singleton]
          tauto
        · intro c hcm
          rw [qmapValue_insert charLt charLt_irrefl charLt_trichotomy]
          by_cases hcx : c = x
          · subst hcx
            rw [if_pos rfl]
            simp [List.count_eq_zero_of_not_mem hxB]
          · have hcB : c ∈ B := by
              rcases List.mem_append.mp hcm with h | h
              · exact h
              · exact absurd (List.mem_singleton.mp h) hcx
            have hxc : ¬ x = c := fun e => hcx e.symm
            rw [if_neg hcx, hv c hcB]
            have h0 : List.count c [x] = 0 :=
              List.count_eq_zero_of_not_mem (by simpa using hcx)
            simp [h0]
    have := ih (B ++ [x]) (buildListStep m x) key.1 key.2.1 key.2.2
    simpa [List.append_assoc] using this
theorem frequencies_spec (B : QByteArray) :
    let m := B.foldl buildListStep []
    (qmapKeys m).Pairwise (fun a b => charLt a b = true) ∧
    (∀ c, c ∈ qmapKeys m ↔ c ∈ B) ∧
    (∀ c ∈ B, qmapValue m c (0, 0) = (c, (B.count c : Int))) := by
  have h := frequencies_inv B [] [] (by simp [qmapKeys]) (by simp [qmapKeys]) (by simp)
  simpa using h

theorem frequencies_entry (B : QByteArray) (k : Byte) (v : Pair)
    (h : (k, v) ∈ B.foldl buildListStep []) : k ∈ B ∧ v = (k, (B.count k : Int)) := by
  obtain ⟨hs, hk, hv⟩ := frequencies_spec B
  have hkm : k ∈ qmapKeys (B.foldl buildListStep []) := by
    simp only [qmapKeys, List.mem_map]
    exact ⟨(k, v), h, rfl⟩
  have hkB := (hk k).mp hkm
  refine ⟨hkB, ?_⟩
  rw [← hv k hkB]
  exact (qmapValue_of_mem charLt charLt_irrefl _ hs k v (0, 0) h).symm

theorem frequencies_symbols (B : QByteArray) :
    symbols (qmapValues (B.foldl buildListStep [])) = qmapKeys (B.foldl buildListStep []) := by
  unfold symbols qmapValues qmapKeys
  rw [List.map_map]
  apply List.map_congr_left
  intro p hp
  obtain ⟨k, v⟩ := p
  have := (frequencies_entry B k v hp).2
  simp [this]

theorem buildList_perm (B : QByteArray) :
    (buildList B).Perm (qmapValues (B.foldl buildListStep [])) :=
  qSort_perm _ _

theorem symbols_buildList_perm (B : QByteArray) :
    (symbols (buildList B)).Perm (qmapKeys (B.foldl buildListStep [])) := by
  rw [← frequencies_symbols]
  exact (buildList_perm B).map _

theorem symbols_buildList_nodup (B : QByteArray) : (symbols (buildList B)).Nodup := by
  rw [(symbols_buildList_perm B).nodup_iff]
  have hs := (frequencies_spec B).1
  refine List.Pairwise.imp ?_ hs
  intro a b hab e
  rw [e, charLt_irrefl] at hab
  exact Bool.false_ne_true hab

theorem mem_symbols_buildList (B : QByteArray) (c : Byte) :
    c ∈ symbols (buildList B) ↔ c ∈ B := by
  rw [(symbols_buildList_perm B).mem_iff]
  exact (frequencies_spec B).2.1 c

theorem mem_buildList (B : QByteArray) (p : Pair) :
    p ∈ buildList B ↔ p.1 ∈ B ∧ p.2 = (B.count p.1 : Int) := by
  rw [(buildList_perm B).mem_iff]
  obtain ⟨hs, hk, hv⟩ := frequencies_spec B
  constructor
  · intro h
    simp only [qmapValues, List.mem_map] at h
    obtain ⟨⟨k, v⟩, hm, rfl⟩ := h
    have := frequencies_entry B k v hm
    simp only
    rw [this.2]
    exact ⟨this.1, rfl⟩
  · rintro ⟨h1, h2⟩
    have hkm := (hk p.1).mpr h1
    have hmem := mem_of_qmapKeys (B.foldl buildListStep []) p.1 (0, 0) hkm
    rw [hv p.1 h1] at hmem
    simp only [qmapValues, List.mem_map]
    refine ⟨_, hmem, ?_⟩
    simp only
    rw [← h2]

theorem buildList_length_two (B : QByteArray) (a b : Byte) (ha : a ∈ B) (hb : b ∈ B)
    (hab : a ≠ b) : 2 ≤ (buildList B).length := by
  have h1 := (mem_symbols_buildList B a).mpr ha
  have h2 := (mem_symbols_buildList B b).mpr hb
  have hl : (symbols (buildList B)).length = (buildList B).length := by simp [symbols]
  rw [← hl]
  match hsym : symbols (buildList B), h1, h2 with
  | [], h1, _ => simp at h1
  | [x], h1, h2 =>
    simp only [List.mem_singleton] at h1 h2
    exact absurd (h1.trans h2.symm) hab
  | _ :: _ :: _, _, _ => simp
theorem qSwap_getElem? {α : Type} (l : List α) (i j k : Nat) (hi : i < l.length)
    (hj : j < l.length) :
    (qSwap l i j)[k]? = if k = j then l[i]? else if k = i then l[j]? else l[k]? := by
  unfold qSwap
  rw [List.getElem?_eq_getElem hi, List.getElem?_eq_getElem hj]
  simp only [List.getElem?_set, List.length_set]
  by_cases h1 : k = j
  · subst h1; simp [hj]
  · have h1b : ¬ j = k := fun e => h1 e.symm
    by_cases h2 : k = i
    · subst h2; simp [h1, h1b, hi]
    · have h2b : ¬ i = k := fun e => h2 e.symm
      simp [h1, h1b, h2, h2b]

theorem lessAt_eq {α : Type} (lessThan : α → α → Bool) (l : List α) (i j : Nat) (a b : α)
    (hi : l[i]? = some a) (hj : l[j]? = some b) : lessAt lessThan l i j = lessThan a b := by
  simp [lessAt, hi, hj]

/-- The upward scan stops at or below `high`, has only passed elements that
may stand before the pivot, and stops below `high` only at an element that
may not. -/
theorem scanUp_spec {α : Type} (lessThan : α → α → Bool) (l : List α) (e high : Nat) (p : α)
    (he : l[e]? = some p) (hh : high < l.length) (n low : Nat)
    (hlow : low ≤ high) (hn : high ≤ low + n)
    (hleft : ∀ i, i < low → ∀ x, l[i]? = some x → lessThan x p = true) :
    low ≤ scanUp lessThan l e high n low ∧ scanUp lessThan l e high n low ≤ high ∧
    (∀ i, i < scanUp lessThan l e high n low → ∀ x, l[i]? = some x → lessThan x p = true) ∧
    (scanUp lessThan l e high n low < high →
      ∀ x, l[scanUp lessThan l e high n low]? = some x → lessThan x p = false) := by
  induction n generalizing low with
  | zero =>
    simp only [scanUp]
    exact ⟨le_refl _, hlow, hleft, fun h => by omega⟩
  | succ n ih =>
    rw [scanUp]
    by_cases hc : (decide (low < high) && lessAt lessThan l low e) = true
    · rw [if_pos hc]
      simp only [Bool.and_eq_true, decide_eq_true_eq] at hc
      have hx : l[low]? = some l[low] := List.getElem?_eq_getElem (by omega)
      have hlt : lessThan l[low] p = true := by
        rw [← lessAt_eq lessThan l low e _ _ hx he]; exact hc.2
      have := ih (low + 1) (by omega) (by omega) (by
        intro i hi x hxi
        by_cases hil : i < low
        · exact hleft i hil x hxi
        · have : i = low := by omega
          subst this
          rw [hx] at hxi
          cases hxi
          exact hlt)
      exact ⟨by omega, this.2.1, this.2.2.1, this.2.2.2⟩
    · rw [if_neg hc]
      refine ⟨le_refl _, hlow, hleft, ?_⟩
      intro hl x hx
      simp only [Bool.and_eq_true, decide_eq_true_eq, not_and, Bool.not_eq_true] at hc
      rw [← lessAt_eq lessThan l low e _ _ hx he]
      exact hc hl

/-- The downward scan stops at or above `low`, has only passed elements that
may stand behind the pivot, and stops above `low` only at an element that may
not. -/
theorem scanDown_spec {α : Type} (lessThan : α → α → Bool) (l : List α) (e low : Nat) (p : α)
    (he : l[e]? = some p) (n high : Nat) (hh : high < e) (hel : e < l.length)
    (hlow : low ≤ high) (hn : high ≤ low + n)
    (hright : ∀ i, high < i → i < e → ∀ x, l[i]? = some x → lessThan p x = true) :
    low ≤ scanDown lessThan l e low n high ∧ scanDown lessThan l e low n high ≤ high ∧
    (∀ i, scanDown lessThan l e low n high < i → i < e →
      ∀ x, l[i]? = some x → lessThan p x = true) ∧
    (low < scanDown lessThan l e low n high →
      ∀ x, l[scanDown lessThan l e low n high]? = some x → lessThan p x = false) := by
  induction n generalizing high with
  | zero =>
    simp only [scanDown]
    exact ⟨hlow, le_refl _, hright, fun h => by omega⟩
  | succ n ih =>
    rw [scanDown]
    by_cases hc : (decide (high > low) && lessAt lessThan l e high) = true
    · rw [if_pos hc]
      simp only [Bool.and_eq_true, decide_eq_true_eq] at hc
      have hx : l[high]? = some l[high] := List.getElem?_eq_getElem (by omega)
      have hlt : lessThan p l[high] = true := by
        rw [← lessAt_eq lessThan l e high _ _ he hx]; exact hc.2
      have := ih (high - 1) (by omega) (by omega) (by omega) (by
        intro i hi hie x hxi
        by_cases hil : high < i
        · exact hright i hil hie x hxi
        · have : i = high := by omega
          subst this
          rw [hx] at hxi
          cases hxi
          exact hlt)
      exact ⟨this.1, by omega, this.2.2.1, this.2.2.2⟩
    · rw [if_neg hc]
      refine ⟨hlow, le_refl _, hright, ?_⟩
      intro hl x hx
      simp only [Bool.and_eq_true, decide_eq_true_eq, not_and, Bool.not_eq_true] at hc
      rw [← lessAt_eq lessThan l e high _ _ he hx]
      exact hc hl

/-- The partition loop of `qSortHelper`: at its end every element before the
returned position may stand before the pivot and every element between that
position and the pivot may stand behind it. -/
theorem partitionLoop_spec {α : Type} (lessThan : α → α → Bool)
    (htot : ∀ a b, lessThan a b = false → lessThan b a = true)
    (e : Nat) (p : α) (n : Nat) (l : List α) (low high : Nat)
    (he : l[e]? = some p) (hel : e < l.length) (hh : high < e) (hle : low < e)
    (hn : high < low + n)
    (hleft : ∀ i, i < low → ∀ x, l[i]? = some x → lessThan x p = true)
    (hright : ∀ i, high < i → i < e → ∀ x, l[i]? = some x → lessThan p x = true) :
    let r := partitionLoop lessThan e n l low high
    r.1.length = l.length ∧ r.1[e]? = some p ∧ r.2 < e ∧
    (∀ i, i < r.2 → ∀ x, r.1[i]? = some x → lessThan x p = true) ∧
    (∀ i, r.2 < i → i < e → ∀ x, r.1[i]? = some x → lessThan p x = true) := by
  induction n generalizing l low high with
  | zero =>
    simp only [partitionLoop]
    refine ⟨by simp, he, hle, hleft, ?_⟩
    intro i hi hie x hx
    exact hright i (by omega) hie x hx
  | succ n ih =>
    rw [partitionLoop]
    by_cases hlh : low < high
    · simp only [hlh, if_true]
      have su := scanUp_spec lessThan l e high p he (by omega) (high - low) low (by omega)
        (by omega) hleft
      generalize scanUp lessThan l e high (high - low) low = low1 at su ⊢
      obtain ⟨su1, su2, su3, su4⟩ := su
      have sd := scanDown_spec lessThan l e low1 p he (high - low1) high hh hel su2 (by omega)
        hright
      generalize scanDown lessThan l e low1 (high - low1) high = high1 at sd ⊢
      obtain ⟨sd1, sd2, sd3, sd4⟩ := sd
      by_cases hc : low1 < high1
      · simp only [hc, if_true]
        have hl1 : low1 < l.length := by omega
        have hh1 : high1 < l.length := by omega
        have hx : l[low1]? = some l[low1] := List.getElem?_eq_getElem hl1
        have hy : l[high1]? = some l[high1] := List.getElem?_eq_getElem hh1
        have hxp : lessThan p l[low1] = true := htot _ _ (su4 (by omega) _ hx)
        have hyp : lessThan l[high1] p = true := htot _ _ (sd4 hc _ hy)
        have := ih (qSwap l low1 high1) (low1 + 1) (high1 - 1)
          (by rw [qSwap_getElem? l low1 high1 e hl1 hh1, if_neg (by omega), if_neg (by omega)]
              exact he)
          (by rw [qSwap_length]; exact hel) (by omega) (by omega) (by omega)
          (by
            intro i hi x hxi
            rw [qSwap_getElem? l low1 high1 i hl1 hh1] at hxi
            by_cases h1 : i = low1
            · rw [if_neg (by omega), if_pos h1, hy] at hxi
              cases hxi
              exact hyp
            · rw [if_neg (by omega), if_neg h1] at hxi
              exact su3 i (by omega) x hxi)
          (by
            intro i hi hie x hxi
            rw [qSwap_getElem? l low1 high1 i hl1 hh1] at hxi
            by_cases h1 : i = high1
            · rw [if_pos h1, hx] at hxi
              cases hxi
              exact hxp
            · rw [if_neg h1, if_neg (by omega)] at hxi
              exact sd3 i (by omega) hie x hxi)
        simp only [qSwap_length] at this
        exact this
      · simp only [hc, if_false]
        refine ⟨by simp, he, by omega, su3, ?_⟩
        intro i hi hie x hxi
        exact sd3 i (by omega) hie x hxi
    · simp only [hlh, if_false]
      refine ⟨by simp, he, hle, hleft, ?_⟩
      intro i hi hie x hx
      exact hright i (by omega) hie x hx
theorem take_one_drop {α : Type} (l : List α) (k : Nat) (p : α) (h : l[k]? = some p) :
    (l.drop k).take 1 = [p] := by
  have h1 : (l.drop k)[0]? = some p := by rw [List.getElem?_drop]; simpa using h
  cases hd : l.drop k with
  | nil => rw [hd] at h1; simp at h1
  | cons x xs =>
    rw [hd] at h1
    simp only [List.getElem?_cons_zero, Option.some.injEq] at h1
    simp [h1]

/-- Placing the pivot after the partition loop: what stands before it may
stand before it, and what stands behind it may stand behind it. -/
theorem pivot_place {α : Type} (lessThan : α → α → Bool)
    (htot : ∀ a b, lessThan a b = false → lessThan b a = true)
    (l : List α) (e r : Nat) (p : α) (hlen : l.length = e + 1)
    (he : l[e]? = some p) (hr : r < e)
    (hleft : ∀ i, i < r → ∀ x, l[i]? = some x → lessThan x p = true)
    (hright : ∀ i, r < i → i < e → ∀ x, l[i]? = some x → lessThan p x = true) :
    let low := if lessAt lessThan l r e then r + 1 else r
    let l6 := qSwap l e low
    low ≤ e ∧ (∀ x ∈ l6.take low, lessThan x p = true) ∧ (l6.drop low).take 1 = [p] ∧
      (∀ y ∈ l6.drop (low + 1), lessThan p y = true) := by
  have hrl : r < l.length := by omega
  have hx : l[r]? = some l[r] := List.getElem?_eq_getElem hrl
  have hla : lessAt lessThan l r e = lessThan l[r] p := lessAt_eq lessThan l r e _ _ hx he
  have hpp : lessThan p p = true := by
    by_cases h : lessThan p p = true
    · exact h
    · exact htot p p (by simpa using h)
  -- the facts about the final position, whichever way the test goes
  have key : ∀ low, low ≤ e → (∀ i, i < low → ∀ x, l[i]? = some x → lessThan x p = true) →
      (∀ i, low ≤ i → i ≤ e → ∀ x, l[i]? = some x → lessThan p x = true) →
      (∀ x ∈ (qSwap l e low).take low, lessThan x p = true) ∧
      ((qSwap l e low).drop low).take 1 = [p] ∧
      (∀ y ∈ (qSwap l e low).drop (low + 1), lessThan p y = true) := by
    intro low hlow hA hB
    have hel : e < l.length := by omega
    have hll : low < l.length := by omega
    refine ⟨?_, ?_, ?_⟩
    · intro x hxm
      obtain ⟨i, hi⟩ := List.mem_iff_getElem?.mp hxm
      rw [List.getElem?_take] at hi
      by_cases hil : i < low
      · rw [if_pos hil, qSwap_getElem? l e low i hel hll, if_neg (by omega)] at hi
        by_cases hie : i = e
        · omega
        · rw [if_neg hie] at hi
          exact hA i hil x hi
      · rw [if_neg hil] at hi
        simp at hi
    · apply take_one_drop
      rw [qSwap_getElem? l e low low hel hll, if_pos rfl]
      exact he
    · intro y hym
      obtain ⟨i, hi⟩ := List.mem_iff_getElem?.mp hym
      rw [List.getElem?_drop, qSwap_getElem? l e low _ hel hll, if_neg (by omega)] at hi
      by_cases hie : low + 1 + i = e
      · rw [if_pos hie] at hi
        exact hB low (le_refl _) hlow y hi
      · rw [if_neg hie] at hi
        have hlt : low + 1 + i < l.length := by
          by_contra hcon
          rw [List.getElem?_eq_none (by omega)] at hi
          simp at hi
        exact hB (low + 1 + i) (by omega) (by omega) y hi
  simp only
  by_cases hc : lessThan l[r] p = true
  · rw [hla, if_pos hc]
    refine ⟨by omega, key (r + 1) (by omega) ?_ ?_⟩
    · intro i hi x hxi
      by_cases hir : i < r
      · exact hleft i hir x hxi
      · have : i = r := by omega
        subst this
        rw [hx] at hxi
        cases hxi
        exact hc
    · intro i hi hie x hxi
      by_cases hie2 : i = e
      · subst hie2
        rw [he] at hxi
        cases hxi
        exact hpp
      · exact hright i (by omega) (by omega) x hxi
  · rw [hla, if_neg hc]
    refine ⟨by omega, key r (by omega) hleft ?_⟩
    intro i hi hie x hxi
    by_cases hie2 : i = e
    · subst hie2
      rw [he] at hxi
      cases hxi
      exact hpp
    · by_cases hir : i = r
      · subst hir
        rw [hx] at hxi
        cases hxi
        exact htot _ _ (by simpa using hc)
      · exact hright i (by omega) (by omega) x hxi
theorem qSortHelper_two {α : Type} (lessThan : α → α → Bool) (fuel : Nat) (a b : α) :
    qSortHelper lessThan (fuel + 1) [a, b] = if lessThan b a then [b, a] else [a, b] := by
  rw [qSortHelper]
  simp [lessAt, qSwap]

theorem qSortHelper_three {α : Type} (lessThan : α → α → Bool) (fuel : Nat) (a b c : α) :
    qSortHelper lessThan (fuel + 1) [a, b, c] =
      (let l1 := if lessThan c a then [c, b, a] else [a, b, c]
       let l2 := if lessAt lessThan l1 1 0 then qSwap l1 1 0 else l1
       if lessAt lessThan l2 2 1 then qSwap l2 2 1 else l2) := by
  rw [qSortHelper]
  simp [lessAt, qSwap]

theorem qSortHelper_three_sorted {α : Type} (lessThan : α → α → Bool)
    (htot : ∀ a b, lessThan a b = false → lessThan b a = true)
    (htrans : ∀ a b c, lessThan a b = true → lessThan b c = true → lessThan a c = true)
    (fuel : Nat) (a b c : α) :
    (qSortHelper lessThan (fuel + 1) [a, b, c]).Pairwise (fun x y => lessThan x y = true) := by
  rw [qSortHelper_three]
  have hab := htot a b
  have hba := htot b a
  have hac := htot a c
  have hca := htot c a
  have hbc := htot b c
  have hcb := htot c b
  have t1 := htrans a b c
  have t2 := htrans a c b
  have t3 := htrans b a c
  have t4 := htrans b c a
  have t5 := htrans c a b
  have t6 := htrans c b a
  clear htot htrans
  cases h1 : lessThan c a <;> cases h2 : lessThan b a <;> cases h3 : lessThan c b <;>
    cases h4 : lessThan b c <;> cases h5 : lessThan a c <;> cases h6 : lessThan a b <;>
    simp_all [lessAt, qSwap]
theorem qSortHelper_sorted {α : Type} (lessThan : α → α → Bool)
    (htot : ∀ a b, lessThan a b = false → lessThan b a = true)
    (htrans : ∀ a b c, lessThan a b = true → lessThan b c = true → lessThan a c = true)
    (fuel : Nat) (l : List α) (hf : l.length ≤ fuel) :
    (qSortHelper lessThan fuel l).Pairwise (fun a b => lessThan a b = true) := by
  induction fuel generalizing l with
  | zero =>
    have : l = [] := List.length_eq_zero.mp (by omega)
    subst this
    simp [qSortHelper]
  | succ fuel ih =>
    match l, hf with
    | [], _ => simp [qSortHelper]
    | [a], _ => simp [qSortHelper]
    | [a, b], _ =>
      rw [qSortHelper_two]
      by_cases h : lessThan b a = true
      · simp [h]
      · have := htot b a (by simpa using h)
        simp [h, this]
    | [a, b, c], _ => exact qSortHelper_three_sorted lessThan htot htrans fuel a b c
    | a :: b :: c :: d :: rest, hf =>
      generalize hl : a :: b :: c :: d :: rest = l at hf ⊢
      have hlen : 4 ≤ l.length := by rw [← hl]; simp
      rw [qSortHelper]
      simp only [show ¬ l.length < 2 by omega, show ¬ l.length = 2 by omega,
        show ¬ l.length = 3 by omega, if_false]
      have hc : ∀ (c : Bool) (l1 l2 : List α), l1.length = l.length → l2.length = l.length →
          (if c then l1 else l2).length = l.length := by
        intro c l1 l2 h1 h2; cases c <;> simp [h1, h2]
      have p1 : (if lessAt lessThan l (l.length - 1) 0 then qSwap l (l.length - 1) 0
          else l).length = l.length := hc _ _ _ (qSwap_length _ _ _) rfl
      generalize (if lessAt lessThan l (l.length - 1) 0 then qSwap l (l.length - 1) 0 else l) = l1
        at p1 ⊢
      have p2 : (if lessAt lessThan l1 (l.length / 2) 0 then qSwap l1 (l.length / 2) 0
          else l1).length = l.length := hc _ _ _ ((qSwap_length _ _ _).trans p1) p1
      generalize (if lessAt lessThan l1 (l.length / 2) 0 then qSwap l1 (l.length / 2) 0
          else l1) = l2 at p2 ⊢
      have p3 : (if lessAt lessThan l2 (l.length - 1) (l.length / 2) then
          qSwap l2 (l.length - 1) (l.length / 2) else l2).length = l.length :=
        hc _ _ _ ((qSwap_length _ _ _).trans p2) p2
      generalize (if lessAt lessThan l2 (l.length - 1) (l.length / 2) then
          qSwap l2 (l.length - 1) (l.length / 2) else l2) = l3 at p3 ⊢
      have p4 : (qSwap l3 (l.length / 2) (l.length - 1)).length = l.length :=
        (qSwap_length _ _ _).trans p3
      generalize qSwap l3 (l.length / 2) (l.length - 1) = l4 at p4 ⊢
      have hel : l.length - 1 < l4.length := by omega
      have he : l4[l.length - 1]? = some l4[l.length - 1] := List.getElem?_eq_getElem hel
      generalize l4[l.length - 1] = p at he
      have ps := partitionLoop_spec lessThan htot (l.length - 1) p l.length l4 0
        (l.length - 1 - 1) he hel (by omega) (by omega) (by omega)
        (fun i hi => by omega) (fun i h1 h2 => by omega)
      generalize partitionLoop lessThan (l.length - 1) l.length l4 0 (l.length - 1 - 1) = r
        at ps ⊢
      obtain ⟨ps1, ps2, ps3, ps4, ps5⟩ := ps
      have pp := pivot_place lessThan htot r.1 (l.length - 1) r.2 p (by omega) ps2 ps3 ps4 ps5
      simp only at pp
      generalize (if lessAt lessThan r.1 r.2 (l.length - 1) then r.2 + 1 else r.2) = low at pp ⊢
      have p6 : (qSwap r.1 (l.length - 1) low).length = l.length :=
        (qSwap_length _ _ _).trans (ps1.trans p4)
      generalize qSwap r.1 (l.length - 1) low = l6 at pp p6 ⊢
      obtain ⟨pp1, pp2, pp3, pp4⟩ := pp
      rw [pp3]
      have s1 := ih (l6.take low) (by rw [List.length_take]; omega)
      have s2 := ih (l6.drop (low + 1)) (by rw [List.length_drop]; omega)
      have m1 : ∀ x ∈ qSortHelper lessThan fuel (l6.take low), lessThan x p = true :=
        fun x hx => pp2 x ((qSortHelper_perm lessThan fuel _).mem_iff.mp hx)
      have m2 : ∀ y ∈ qSortHelper lessThan fuel (l6.drop (low + 1)), lessThan p y = true :=
        fun y hy => pp4 y ((qSortHelper_perm lessThan fuel _).mem_iff.mp hy)
      rw [List.pairwise_append]
      refine ⟨?_, s2, ?_⟩
      · rw [List.pairwise_append]
        refine ⟨s1, by simp, ?_⟩
        intro x hx y hy
        simp only [List.mem_singleton] at hy
        subst hy
        exact m1 x hx
      · intro x hx y hy
        rcases List.mem_append.mp hx with h | h
        · exact htrans _ _ _ (m1 x h) (m2 y hy)
        · simp only [List.mem_singleton] at h
          subst h
          exact m2 y hy

theorem qSort_sorted {α : Type} (lessThan : α → α → Bool)
    (htot : ∀ a b, lessThan a b = false → lessThan b a = true)
    (htrans : ∀ a b c, lessThan a b = true → lessThan b c = true → lessThan a c = true)
    (l : List α) : (qSort lessThan l).Pairwise (fun a b => lessThan a b = true) :=
  qSortHelper_sorted lessThan htot htrans l.length l (Nat.le_refl _)

theorem buildList_sorted (B : QByteArray) :
    (buildList B).Pairwise (fun x y => x.2 ≥ y.2) := by
  have h := qSort_sorted reverseLessThan
    (by intro a b h; simp only [reverseLessThan, decide_eq_false_iff_not,
          decide_eq_true_eq] at h ⊢; omega)
    (by intro a b c h1 h2; simp only [reverseLessThan, decide_eq_true_eq] at h1 h2 ⊢; omega)
    (qmapValues (B.foldl buildListStep []))
  refine List.Pairwise.imp ?_ h
  intro a b hab
  simpa [reverseLessThan] using hab
theorem buildList_length_single (B : QByteArray) (a : Byte) (hall : ∀ b ∈ B, b = a) :
    (buildList B).length < 2 := by
  have hnd := symbols_buildList_nodup B
  have hmem : ∀ c ∈ symbols (buildList B), c = a := fun c hc =>
    hall c ((mem_symbols_buildList B c).mp hc)
  have hl : (symbols (buildList B)).length = (buildList B).length := by simp [symbols]
  rw [← hl]
  match hsym : symbols (buildList B), hnd, hmem with
  | [], _, _ => simp
  | [x], _, _ => simp
  | x :: y :: rest, hnd, hmem =>
    have hx := hmem x (by simp)
    have hy := hmem y (by simp)
    have : x ≠ y := by
      intro e
      rw [e] at hnd
      simp at hnd
    exact absurd (hx.trans hy.symm) this

/-- A buffer with a single distinct byte value gets no table, whatever the
fuel. -/
theorem shannonFano_single_symbol (B : QByteArray) (a : Byte) (hall : ∀ b ∈ B, b = a)
    (fuel : Nat) (codes : CodeMap) : shannonFano fuel (buildList B) codes = none :=
  shannonFano_short fuel _ _ (buildList_length_single B a hall)

/-! ## The claims -/

/-- C1, at the failing input: for the buffer "aaaa" the frequency list has the one
entry `('a', 4)`, and `shannonFano` returns no table whatever the fuel. After
the symbol has been coded, `shannonFano` calls `shannonFanoRecursive` on the
empty rest of the list, and that call recurses on empty lists without end; so
there is no table with which "aaaa" could be encoded and decoded. -/
theorem roundtrip_single_symbol_no_table :
    buildList [97, 97, 97, 97] = [(97, 4)] ∧
      ∀ fuel, shannonFano fuel (buildList [97, 97, 97, 97]) [] = none := by
  have h : buildList [97, 97, 97, 97] = [(97, 4)] := by decide
  refine ⟨h, fun fuel => ?_⟩
  rw [h]
  exact shannonFano_short fuel _ _ (by decide)

/-- C2: for every byte buffer `B` that contains two different byte values,
`shannonFano` on `buildList B` returns a table `T` (the same for every fuel
from the length of the list on), and decoding the encoding of `B` with `T`
gives `B` back: `unzip(zip(B, T), T) = B`. -/
theorem roundtrip_two_symbols (B : QByteArray) (a b : Byte) (ha : a ∈ B) (hb : b ∈ B)
    (hab : a ≠ b) :
    ∃ T, (∀ fuel, (buildList B).length ≤ fuel → shannonFano fuel (buildList B) [] = some T) ∧
      ∀ fuel, B.length ≤ fuel → unzip fuel (zip B T) T = .ok B := by
  obtain ⟨T, hT⟩ := shannonFano_table (buildList B) [] (buildList_length_two B a b ha hb hab)
  refine ⟨T, hT, ?_⟩
  have hspec := shannonFano_spec _ _ _ _ (symbols_buildList_nodup B) (hT _ (Nat.le_refl _))
  have hkeys := keys_of_codesExtend _ _ _ hspec.1
  intro fuel hfuel
  apply unzip_zip_general T (prefixFree_of_codesExtend _ _ _ hspec.1) _ B _ fuel hfuel
  · intro c hc
    exact hspec.2 c ((hkeys c).mp hc)
  · intro c hc
    exact (hkeys c).mpr ((mem_symbols_buildList B c).mpr hc)

/-- C2 at the buffer "aabbc": its frequencies are b:2, a:2, c:1 in the order
of `buildList`, and it is encoded and decoded back to itself. -/
theorem roundtrip_two_symbols_witness :
    ((97 : Byte) ∈ ([97, 97, 98, 98, 99] : QByteArray) ∧
      (98 : Byte) ∈ ([97, 97, 98, 98, 99] : QByteArray) ∧ (97 : Byte) ≠ 98) ∧
    buildList [97, 97, 98, 98, 99] = [(98, 2), (97, 2), (99, 1)] ∧
    ∃ T, (∀ fuel, (buildList [97, 97, 98, 98, 99]).length ≤ fuel →
        shannonFano fuel (buildList [97, 97, 98, 98, 99]) [] = some T) ∧
      ∀ fuel, ([97, 97, 98, 98, 99] : QByteArray).length ≤ fuel →
        unzip fuel (zip [97, 97, 98, 98, 99] T) T = .ok [97, 97, 98, 98, 99] :=
  ⟨by decide, by decide,
    roundtrip_two_symbols [97, 97, 98, 98, 99] 97 98 (by decide) (by decide) (by decide)⟩

/-- C3: for every frequency list with pairwise different symbols, every table
that `shannonFano` produces from it (started on an empty table, at any fuel)
is prefix-free: no symbol's code is a prefix of a different symbol's code.
A list of at least two entries does produce a table, the same for every fuel
from the length of the list on. -/
theorem shannonFano_prefixFree (list : List Pair) (hnd : (symbols list).Nodup) :
    (∀ fuel T, shannonFano fuel list [] = some T → PrefixFree T) ∧
    (2 ≤ list.length →
      ∃ T, (∀ fuel, list.length ≤ fuel → shannonFano fuel list [] = some T) ∧ PrefixFree T) := by
  have h1 : ∀ fuel T, shannonFano fuel list [] = some T → PrefixFree T := fun fuel T h =>
    prefixFree_of_codesExtend _ _ _ (shannonFano_spec fuel list [] T hnd h).1
  refine ⟨h1, fun h2 => ?_⟩
  obtain ⟨T, hT⟩ := shannonFano_table list [] h2
  exact ⟨T, hT, h1 _ T (hT _ (Nat.le_refl _))⟩

/-- C3 at the frequency list b:2, a:2, c:1. -/
theorem shannonFano_prefixFree_witness :
    (symbols [(98, 2), (97, 2), (99, 1)]).Nodup ∧
    (∀ fuel T, shannonFano fuel [(98, 2), (97, 2), (99, 1)] [] = some T → PrefixFree T) ∧
    (2 ≤ ([(98, 2), (97, 2), (99, 1)] : List Pair).length →
      ∃ T, (∀ fuel, ([(98, 2), (97, 2), (99, 1)] : List Pair).length ≤ fuel →
        shannonFano fuel [(98, 2), (97, 2), (99, 1)] [] = some T) ∧ PrefixFree T) :=
  ⟨by decide, shannonFano_prefixFree [(98, 2), (97, 2), (99, 1)] (by decide)⟩

/-- Coverage for a buffer with two different byte values: the table exists,
its keys are the byte values of the buffer, and no key occurs twice. -/
theorem coverage_two_symbols (B : QByteArray) (a b : Byte) (ha : a ∈ B) (hb : b ∈ B)
    (hab : a ≠ b) :
    ∃ T, (∀ fuel, (buildList B).length ≤ fuel → shannonFano fuel (buildList B) [] = some T) ∧
      (∀ c, c ∈ qmapKeys T ↔ c ∈ B) := by
  obtain ⟨T, hT⟩ := shannonFano_table (buildList B) [] (buildList_length_two B a b ha hb hab)
  refine ⟨T, hT, fun c => ?_⟩
  have hspec := shannonFano_spec _ _ _ _ (symbols_buildList_nodup B) (hT _ (Nat.le_refl _))
  rw [keys_of_codesExtend _ _ _ hspec.1, mem_symbols_buildList]

/-- C4, at the failing input: the buffer "aa" contains the byte 'a', its
frequency list is the one entry `('a', 2)`, and `shannonFano` returns no
table for it whatever the fuel, so 'a' is the key of no table. -/
theorem coverage_single_symbol_no_table :
    (97 : Byte) ∈ ([97, 97] : QByteArray) ∧ buildList [97, 97] = [(97, 2)] ∧
      ∀ fuel, shannonFano fuel (buildList [97, 97]) [] = none := by
  have h : buildList [97, 97] = [(97, 2)] := by decide
  refine ⟨by decide, h, fun fuel => ?_⟩
  rw [h]
  exact shannonFano_short fuel _ _ (by decide)

/-- C5: for every code table `T` that is prefix-free and whose codes all have
length at least 1, and every byte buffer `B` whose bytes all have an entry in
`T`, decoding the encoding of `B` gives `B` back, `unzip(zip(B, T), T) = B`,
once the fuel covers one pass of the decoding loop per byte. -/
theorem unzip_zip_any_table (T : CodeMap) (B : QByteArray) (hpf : PrefixFree T)
    (hlen : ∀ c ∈ qmapKeys T, 1 ≤ (qmapValue T c []).length)
    (hcov : ∀ b ∈ B, b ∈ qmapKeys T) (fuel : Nat) (hfuel : B.length ≤ fuel) :
    unzip fuel (zip B T) T = .ok B :=
  unzip_zip_general T hpf hlen B hcov fuel hfuel

set_option maxRecDepth 4000 in

/-- C5 at a table for a, b, c and the buffer "cab", which the table was not
built from. -/
theorem unzip_zip_any_table_witness :
    PrefixFree [(97, [true, false]), (98, [false]), (99, [true, true])] ∧
    unzip 3 (zip [99, 97, 98] [(97, [true, false]), (98, [false]), (99, [true, true])])
      [(97, [true, false]), (98, [false]), (99, [true, true])] = .ok [99, 97, 98] :=
  ⟨by decide,
    unzip_zip_any_table [(97, [true, false]), (98, [false]), (99, [true, true])] [99, 97, 98]
      (by decide) (by decide) (by decide) 3 (by decide)⟩

/-- C6: for every byte buffer `B` and every code table `T`, so also for the
table that `shannonFano` builds from `buildList B`, `zip B T` is a header
byte followed by the packed bytes, and the header equals 8 times the number
of packed bytes minus the number of code bits of the bytes of `B`, a value
from 0 to 7. -/
theorem zip_header (B : QByteArray) (T : CodeMap) :
    ∃ (h : Byte) (packed : QByteArray), zip B T = h :: packed ∧
      (h.val : Int) = 8 * (packed.length : Int) - (totalBits B T : Int) ∧ h.val ≤ 7 := by
  refine ⟨_, _, zip_eq B T, ?_, ?_⟩
  · rw [bitsToBytes_length, zipBits_length]
    simp only [natToChar]
    omega
  · rw [zipBits_length]
    simp only [natToChar]
    omega

/-- C7: for every bit sequence of length `n`, `bitsToBytes` returns
`ceil(n / 8)` bytes; for every `i < n` the bit of value `1 << (i mod 8)` of
byte `i / 8` is set exactly when `bits[i]` is true; and every bit position
`k < 8` of a byte `j` that lies at or beyond `n` is 0. -/
theorem bitsToBytes_layout (bits : List Bool) :
    (bitsToBytes bits).length = (bits.length + 7) / 8 ∧
    (∀ i, i < bits.length →
      (((byteAt (bitsToBytes bits) (i / 8)).val &&& (1 <<< (i % 8)) ≠ 0) ↔
        bits.getD i false = true)) ∧
    (∀ j k, k < 8 → bits.length ≤ 8 * j + k →
      (byteAt (bitsToBytes bits) j).val &&& (1 <<< k) = 0) := by
  have hbit : ∀ (n k : Nat), (n &&& (1 <<< k) ≠ 0) ↔ n.testBit k = true := by
    intro n k
    rw [Nat.one_shiftLeft, ← and_pow_ne_zero]
    simp
  refine ⟨bitsToBytes_length bits, ?_, ?_⟩
  · intro i hi
    rw [hbit, byteAt, bitsToBytes_testBit bits (i / 8) (i % 8) (by omega)]
    have e : 8 * (i / 8) + i % 8 = i := by omega
    rw [e]
    simp [hi]
  · intro j k hk hn
    by_contra hne
    have := (hbit _ _).mp hne
    rw [byteAt, bitsToBytes_testBit bits j k hk] at this
    simp only [Bool.and_eq_true, decide_eq_true_eq] at this
    omega

/-- C8: for every bit sequence of length `n`, removing the last
`8 * ceil(n / 8) - n` bits from `bytesToBits (bitsToBytes bits)`, with the
loop that `unzip` uses for it, yields exactly `bits`. -/
theorem unpack_inverts_pack (bits : List Bool) :
    removeExtra (8 * ((bits.length + 7) / 8) - bits.length) (bytesToBits (bitsToBytes bits)) =
      .ok bits := by
  rw [bytesToBits_bitsToBytes, removeExtra_append]

/-- C9: for every byte buffer `B`, no symbol occurs twice in `buildList B`;
every byte value of `B` is there, paired with the number of times it occurs
in `B`; and every entry is a byte value of `B` with that number. -/
theorem buildList_counts (B : QByteArray) :
    (symbols (buildList B)).Nodup ∧
    (∀ c, c ∈ B → (c, (B.count c : Int)) ∈ buildList B) ∧
    (∀ p, p ∈ buildList B → p.1 ∈ B ∧ p.2 = (B.count p.1 : Int)) :=
  ⟨symbols_buildList_nodup B,
    fun c hc => (mem_buildList B (c, (B.count c : Int))).mpr ⟨hc, rfl⟩,
    fun p hp => (mem_buildList B p).mp hp⟩

/-- C10: for every byte buffer `B`, the counts in `buildList B` descend: an
entry's count is at least the count of every later entry, and in particular
of the entry next to it. -/
theorem buildList_descending (B : QByteArray) :
    (buildList B).Pairwise (fun x y => x.2 ≥ y.2) ∧
    (buildList B).Chain' (fun x y => x.2 ≥ y.2) :=
  ⟨buildList_sorted B, (buildList_sorted B).chain'⟩

/-! ## Lemmas on the split index, the frequency order and the decoder -/

theorem intLt_irrefl (a : Int) : intLt a a = false := by simp [intLt]

theorem intLt_trichotomy (a b : Int) (h1 : intLt a b = false) (h2 : intLt b a = false) :
    a = b := by
  simp only [intLt, decide_eq_false_iff_not, not_lt] at h1 h2
  omega

theorem intLt_trans (a b c : Int) (h1 : intLt a b = true) (h2 : intLt b c = true) :
    intLt a c = true := by
  simp only [intLt, decide_eq_true_eq] at *
  omega

theorem wrapInt_eq (z : Int) (h1 : -2147483648 ≤ z) (h2 : z < 2147483648) : wrapInt z = z := by
  unfold wrapInt
  omega

/-- Adding non-negative `int`s whose total stays below 2^31 does not wrap. -/
theorem foldl_wrap_eq_sum {ι : Type} (f : ι → Int) (l : List ι) (init : Int)
    (h0 : 0 ≤ init) (hf : ∀ x ∈ l, 0 ≤ f x) (hb : init + (l.map f).sum < 2147483648) :
    l.foldl (fun s j => wrapInt (s + f j)) init = init + (l.map f).sum := by
  induction l generalizing init with
  | nil => simp
  | cons x l ih =>
    have hx := hf x (List.mem_cons_self _ _)
    have hl : ∀ y ∈ l, 0 ≤ f y := fun y hy => hf y (List.mem_cons_of_mem _ hy)
    have hs : 0 ≤ (l.map f).sum := List.sum_nonneg (by
      intro v hv
      obtain ⟨y, hy, rfl⟩ := List.mem_map.mp hv
      exact hl y hy)
    simp only [List.map_cons, List.sum_cons] at hb
    simp only [List.foldl_cons, List.map_cons, List.sum_cons]
    rw [wrapInt_eq _ (by omega) (by omega), ih (init + f x) (by omega) hl (by omega)]
    omega

theorem sum_range'_getD (list : List Pair) (a k : Nat) (h : a + k ≤ list.length) :
    ((List.range' a k).map (fun j => (list.getD j (0, 0)).2)).sum =
      (((list.drop a).take k).map Prod.snd).sum := by
  induction k generalizing a with
  | zero => simp
  | succ k ih =>
    have ha : a < list.length := by omega
    have hd : list.drop a = list[a] :: list.drop (a + 1) := List.drop_eq_getElem_cons ha
    rw [List.range'_succ, List.map_cons, List.sum_cons, ih (a + 1) (by omega), hd,
      List.take_succ_cons, List.map_cons, List.sum_cons]
    congr 1
    simp [List.getD_eq_getElem?_getD, List.getElem?_eq_getElem ha]

theorem getD_count_nonneg (list : List Pair) (hnn : ∀ p ∈ list, 0 ≤ p.2) (j : Nat) :
    0 ≤ (list.getD j (0, 0)).2 := by
  rw [List.getD_eq_getElem?_getD]
  by_cases hj : j < list.length
  · rw [List.getElem?_eq_getElem hj]
    exact hnn _ (List.getElem_mem _)
  · rw [List.getElem?_eq_none (by omega)]
    simp

theorem sum_counts_nonneg (list : List Pair) (hnn : ∀ p ∈ list, 0 ≤ p.2) :
    0 ≤ (list.map Prod.snd).sum := by
  apply List.sum_nonneg
  intro v hv
  obtain ⟨p, hp, rfl⟩ := List.mem_map.mp hv
  exact hnn p hp

theorem sum_counts_split (list : List Pair) (k : Nat) :
    ((list.take k).map Prod.snd).sum + ((list.drop k).map Prod.snd).sum =
      (list.map Prod.snd).sum := by
  rw [← List.sum_append, ← List.map_append, List.take_append_drop]

theorem leftSum_plain (list : List Pair) (i : Nat) (h : i < list.length) :
    (list.getD i (0, 0)).2 + ((List.range i).map (fun j => (list.getD j (0, 0)).2)).sum =
      ((list.take (i + 1)).map Prod.snd).sum := by
  have h0 := sum_range'_getD list 0 (i + 1) (by omega)
  rw [List.drop_zero] at h0
  rw [← h0, ← List.range_eq_range', List.range_succ, List.map_append, List.sum_append]
  simp [add_comm]

theorem rightSum_plain (list : List Pair) (i : Nat) (h : i + 1 < list.length) :
    (list.getD (i + 1) (0, 0)).2 +
      ((List.range' (i + 2) (list.length - (i + 2))).map
        (fun j => (list.getD j (0, 0)).2)).sum =
      ((list.drop (i + 1)).map Prod.snd).sum := by
  have h1 := sum_range'_getD list (i + 1) (list.length - (i + 1)) (by omega)
  have ht : (list.drop (i + 1)).take (list.length - (i + 1)) = list.drop (i + 1) := by
    apply List.take_of_length_le
    rw [List.length_drop]
  rw [ht] at h1
  rw [← h1]
  have hr : List.range' (i + 1) (list.length - (i + 1)) =
      (i + 1) :: List.range' (i + 2) (list.length - (i + 2)) := by
    have : list.length - (i + 1) = (list.length - (i + 2)) + 1 := by omega
    rw [this, List.range'_succ]
  rw [hr, List.map_cons, List.sum_cons]

/-- For non-negative counts with a total below 2^31 the `left` sum of
`balancedMid` is the sum of the counts at the indices `0 .. i`. -/
theorem leftSum_eq (list : List Pair) (hnn : ∀ p ∈ list, 0 ≤ p.2)
    (hsum : (list.map Prod.snd).sum < 2147483648) (i : Nat) (h : i < list.length) :
    leftSum list i = ((list.take (i + 1)).map Prod.snd).sum := by
  have hsplit := sum_counts_split list (i + 1)
  have hd := sum_counts_nonneg (list.drop (i + 1)) (fun p hp => hnn p (List.mem_of_mem_drop hp))
  have hp := leftSum_plain list i h
  unfold leftSum
  rw [foldl_wrap_eq_sum (fun j => (list.getD j (0, 0)).2) _ _ (getD_count_nonneg list hnn i)
    (fun j _ => getD_count_nonneg list hnn j) (by omega)]
  exact hp

/-- For non-negative counts with a total below 2^31 the `right` sum of
`balancedMid` is the sum of the counts at the indices `i + 1 .. n - 1`. -/
theorem rightSum_eq (list : List Pair) (hnn : ∀ p ∈ list, 0 ≤ p.2)
    (hsum : (list.map Prod.snd).sum < 2147483648) (i : Nat) (h : i + 1 < list.length) :
    rightSum list i = ((list.drop (i + 1)).map Prod.snd).sum := by
  have hsplit := sum_counts_split list (i + 1)
  have ht := sum_counts_nonneg (list.take (i + 1)) (fun p hp => hnn p (List.mem_of_mem_take hp))
  have hp := rightSum_plain list i h
  unfold rightSum
  rw [foldl_wrap_eq_sum (fun j => (list.getD j (0, 0)).2) _ _
    (getD_count_nonneg list hnn (i + 1)) (fun j _ => getD_count_nonneg list hnn j) (by omega)]
  exact hp

/-- For non-negative counts with a total below 2^31 the key that
`balancedMid` computes for the split index `i` is the imbalance of that
split. -/
theorem splitKey_eq (list : List Pair) (hnn : ∀ p ∈ list, 0 ≤ p.2)
    (hsum : (list.map Prod.snd).sum < 2147483648) (i : Nat) (h : i + 1 < list.length) :
    splitKey list i = imbalance list i := by
  have hsplit := sum_counts_split list (i + 1)
  have ht := sum_counts_nonneg (list.take (i + 1)) (fun p hp => hnn p (List.mem_of_mem_take hp))
  have hd := sum_counts_nonneg (list.drop (i + 1)) (fun p hp => hnn p (List.mem_of_mem_drop hp))
  unfold splitKey imbalance
  rw [leftSum_eq list hnn hsum i (by omega), rightSum_eq list hnn hsum i h]
  generalize ((list.take (i + 1)).map Prod.snd).sum = l at *
  generalize ((list.drop (i + 1)).map Prod.snd).sum = r at *
  rw [wrapInt_eq (l - r) (by omega) (by omega)]
  have h1 : |l - r| < 2147483648 := abs_lt.mpr ⟨by omega, by omega⟩
  have h2 : 0 ≤ |l - r| := abs_nonneg _
  rw [wrapInt_eq _ (by omega) h1]

/-- The map of `balancedMid` after `n` rounds, for any key function `f`: the
keys ascend, every key is `f i` for the index `i` stored under it, that index
is the last one below `n` with this key, and every `f j` with `j < n` is a
key. -/
theorem balancedMidMap_inv (f : Nat → Int) (n : Nat) :
    let map := (List.range n).foldl (fun map i => qmapInsert intLt (f i) (i : Int) map) []
    (qmapKeys map).Pairwise (fun a b => intLt a b = true) ∧
    (∀ key ∈ qmapKeys map, ∃ i, i < n ∧ qmapValue map key 0 = (i : Int) ∧ f i = key ∧
      ∀ j, j < n → f j = key → j ≤ i) ∧
    (∀ j, j < n → f j ∈ qmapKeys map) := by
  induction n with
  | zero => simp [qmapKeys]
  | succ n ih =>
    simp only [List.range_succ, List.foldl_append, List.foldl_cons, List.foldl_nil]
    simp only at ih
    generalize (List.range n).foldl (fun map i => qmapInsert intLt (f i) (i : Int) map) [] = map
      at ih ⊢
    obtain ⟨hs, hv, hk⟩ := ih
    refine ⟨qmapInsert_sorted intLt intLt_trichotomy intLt_trans _ _ _ hs, ?_, ?_⟩
    · intro key hkey
      rw [qmapValue_insert intLt intLt_irrefl intLt_trichotomy]
      by_cases he : key = f n
      · refine ⟨n, by omega, by simp [he], he.symm, fun j hj _ => by omega⟩
      · rcases (qmapKeys_insert intLt intLt_trichotomy _ _ _ _).mp hkey with h | h
        · exact absurd h he
        · obtain ⟨i, hi, hval, hfi, hlast⟩ := hv key h
          refine ⟨i, by omega, by simp [he, hval], hfi, ?_⟩
          intro j hj hfj
          by_cases hjn : j = n
          · subst hjn; exact absurd hfj.symm he
          · exact hlast j (by omega) hfj
    · intro j hj
      rw [qmapKeys_insert intLt intLt_trichotomy]
      by_cases hjn : j = n
      · subst hjn; exact Or.inl rfl
      · exact Or.inr (hk j (by omega))

/-- The index that `balancedMid` returns for a list of at least two entries
with non-negative counts whose total is below 2^31: it is a valid split index, its imbalance is minimal, and among the indices
with that imbalance it is the last. -/
theorem balancedMid_spec (list : List Pair) (h : 2 ≤ list.length)
    (hnn : ∀ p ∈ list, 0 ≤ p.2) (hsum : (list.map Prod.snd).sum < 2147483648) :
    ∃ m : Nat, balancedMid list = (m : Int) ∧ m + 2 ≤ list.length ∧
      (∀ k, k + 2 ≤ list.length → imbalance list m ≤ imbalance list k) ∧
      (∀ k, k + 2 ≤ list.length → imbalance list k = imbalance list m → k ≤ m) := by
  have hne : list.isEmpty = false := by
    cases list with
    | nil => simp at h
    | cons _ _ => rfl
  have hlt : ¬ list.length < 2 := by omega
  unfold balancedMid
  simp only [hne, Bool.false_eq_true, if_false, hlt]
  have hm := balancedMidMap_inv (splitKey list) (list.length - 1)
  simp only at hm
  unfold balancedMidMap
  generalize (List.range (list.length - 1)).foldl
    (fun map i => qmapInsert intLt (splitKey list i) (i : Int) map) [] = map
    at hm ⊢
  obtain ⟨hs, hv, hk⟩ := hm
  cases map with
  | nil =>
    have := hk 0 (by omega)
    simp [qmapKeys] at this
  | cons p map =>
    obtain ⟨k0, v0⟩ := p
    obtain ⟨i, hi, hval, hfi, hlast⟩ := hv k0 (by simp [qmapKeys])
    simp only [qmapValue, if_true] at hval
    have hmin : ∀ key ∈ qmapKeys ((k0, v0) :: map), k0 ≤ key := by
      intro key hkey
      have hs2 : ∀ x ∈ qmapKeys map, intLt k0 x = true := by
        have := hs
        simp only [qmapKeys, List.map_cons, List.pairwise_cons] at this
        exact this.1
      have hkey2 : key ∈ k0 :: qmapKeys map := hkey
      rcases List.mem_cons.mp hkey2 with h1 | h1
      · omega
      · have := hs2 key h1
        simp only [intLt, decide_eq_true_eq] at this
        omega
    refine ⟨i, by simp [qmapValues, hval], by omega, ?_, ?_⟩
    · intro k hk2
      have h1 := hmin _ (hk k (by omega))
      rw [← splitKey_eq list hnn hsum i (by omega), ← splitKey_eq list hnn hsum k (by omega), hfi]
      exact h1
    · intro k hk2 heq
      apply hlast k (by omega)
      rw [← hfi, splitKey_eq list hnn hsum i (by omega), splitKey_eq list hnn hsum k (by omega)]
      exact heq

/-- Two maps with ascending keys, the same keys and the same value under
every key are the same list. -/
theorem qmap_ext {κ α : Type} [DecidableEq κ] (lt : κ → κ → Bool)
    (hirr : ∀ a, lt a a = false)
    (htrans : ∀ a b c, lt a b = true → lt b c = true → lt a c = true)
    (d : α) (m m1 : List (κ × α))
    (hs : (qmapKeys m).Pairwise (fun a b => lt a b = true))
    (hs1 : (qmapKeys m1).Pairwise (fun a b => lt a b = true))
    (hk : ∀ c, c ∈ qmapKeys m ↔ c ∈ qmapKeys m1)
    (hv : ∀ c ∈ qmapKeys m, qmapValue m c d = qmapValue m1 c d) : m = m1 := by
  induction m generalizing m1 with
  | nil =>
    cases m1 with
    | nil => rfl
    | cons p m1 =>
      have := (hk p.1).mpr (by simp [qmapKeys])
      simp [qmapKeys] at this
  | cons p m ih =>
    obtain ⟨k, v⟩ := p
    cases m1 with
    | nil =>
      have := (hk k).mp (by simp [qmapKeys])
      simp [qmapKeys] at this
    | cons p1 m1 =>
      obtain ⟨k1, v1⟩ := p1
      have hsm : (∀ x ∈ qmapKeys m, lt k x = true) ∧
          (qmapKeys m).Pairwise (fun a b => lt a b = true) := by
        have := hs
        simp only [qmapKeys, List.map_cons, List.pairwise_cons] at this
        exact this
      have hsm1 : (∀ x ∈ qmapKeys m1, lt k1 x = true) ∧
          (qmapKeys m1).Pairwise (fun a b => lt a b = true) := by
        have := hs1
        simp only [qmapKeys, List.map_cons, List.pairwise_cons] at this
        exact this
      have hkk : k = k1 := by
        have h1 : k ∈ k1 :: qmapKeys m1 := (hk k).mp (by simp [qmapKeys])
        have h2 : k1 ∈ k :: qmapKeys m := (hk k1).mpr (by simp [qmapKeys])
        rcases List.mem_cons.mp h1 with e | e
        · exact e
        · rcases List.mem_cons.mp h2 with e2 | e2
          · exact e2.symm
          · have a1 := hsm1.1 k e
            have a2 := hsm.1 k1 e2
            have := htrans _ _ _ a1 a2
            rw [hirr] at this
            exact absurd this Bool.false_ne_true
      subst hkk
      have hvv : v = v1 := by
        have := hv k (by simp [qmapKeys])
        simpa [qmapValue] using this
      subst hvv
      have hne : ∀ x ∈ qmapKeys m, k ≠ x := by
        intro x hx e
        have := hsm.1 x hx
        rw [← e, hirr] at this
        exact Bool.false_ne_true this
      have hne1 : ∀ x ∈ qmapKeys m1, k ≠ x := by
        intro x hx e
        have := hsm1.1 x hx
        rw [← e, hirr] at this
        exact Bool.false_ne_true this
      have hrest : m = m1 := by
        apply ih m1 hsm.2 hsm1.2
        · intro c
          constructor
          · intro hc
            have h1 : c ∈ k :: qmapKeys m1 := (hk c).mp (List.mem_cons_of_mem _ hc)
            rcases List.mem_cons.mp h1 with e | e
            · exact absurd e.symm (hne c hc)
            · exact e
          · intro hc
            have h1 : c ∈ k :: qmapKeys m := (hk c).mpr (List.mem_cons_of_mem _ hc)
            rcases List.mem_cons.mp h1 with e | e
            · exact absurd e.symm (hne1 c hc)
            · exact e
        · intro c hc
          have h1 := hv c (List.mem_cons_of_mem _ hc)
          simp only [qmapValue, hne c hc, if_false] at h1
          exact h1
      rw [hrest]

/-- The frequency map depends on the bytes of the buffer and their numbers
only, not on their order. -/
theorem frequencies_perm (B B1 : QByteArray) (h : B.Perm B1) :
    B.foldl buildListStep [] = B1.foldl buildListStep [] := by
  obtain ⟨hs, hk, hv⟩ := frequencies_spec B
  obtain ⟨hs1, hk1, hv1⟩ := frequencies_spec B1
  apply qmap_ext charLt charLt_irrefl charLt_trans (0, 0) _ _ hs hs1
  · intro c
    rw [hk, hk1]
    exact h.mem_iff
  · intro c hc
    have hcB := (hk c).mp hc
    rw [hv c hcB, hv1 c (h.mem_iff.mp hcB), h.count_eq]

theorem buildList_of_perm (B B1 : QByteArray) (h : B.Perm B1) : buildList B = buildList B1 := by
  unfold buildList
  rw [frequencies_perm B B1 h]
theorem buildList_single (B : QByteArray) (a : Byte) (hne : B ≠ []) (hall : ∀ b ∈ B, b = a) :
    buildList B = [(a, (B.length : Int))] := by
  have ha : a ∈ B := by
    cases B with
    | nil => exact absurd rfl hne
    | cons x B =>
      have := hall x (List.mem_cons_self _ _)
      rw [← this]
      exact List.mem_cons_self _ _
  have hmem := (mem_buildList B (a, (B.count a : Int))).mpr ⟨ha, rfl⟩
  have hlen := buildList_length_single B a hall
  have hcount : B.count a = B.length :=
    List.count_eq_length.mpr (fun b hb => (hall b hb).symm)
  rw [hcount] at hmem
  match hl : buildList B, hmem, hlen with
  | [], hmem, _ => simp at hmem
  | [x], hmem, _ =>
    simp only [List.mem_singleton] at hmem
    rw [hmem]
  | _ :: _ :: _, _, hlen => exact absurd hlen (by simp)

theorem balancedMid_two (p q : Pair) : balancedMid [p, q] = 0 := by
  simp [balancedMid, balancedMidMap, qmapInsert, qmapValues, List.range_succ]

theorem shannonFano_two (fuel : Nat) (p q : Pair) (codes : CodeMap) :
    shannonFano (fuel + 1) [p, q] codes =
      some (qmapInsert charLt q.1 [true] (qmapInsert charLt p.1 [false] codes)) := by
  unfold shannonFano
  simp [balancedMid_two, shannonFanoRecursive]

theorem buildList_two (B : QByteArray) (a b : Byte) (hab : a ≠ b) (ha : a ∈ B) (hb : b ∈ B)
    (hall : ∀ c ∈ B, c = a ∨ c = b) :
    ∃ p q : Pair, buildList B = [p, q] ∧ ((p.1 = a ∧ q.1 = b) ∨ (p.1 = b ∧ q.1 = a)) := by
  have hnd := symbols_buildList_nodup B
  have hma := (mem_symbols_buildList B a).mpr ha
  have hmb := (mem_symbols_buildList B b).mpr hb
  have hmem : ∀ c ∈ symbols (buildList B), c = a ∨ c = b := fun c hc =>
    hall c ((mem_symbols_buildList B c).mp hc)
  match hl : buildList B, hnd, hma, hmb, hmem with
  | [], _, hma, _, _ => simp [symbols] at hma
  | [x], _, hma, hmb, _ =>
    simp only [symbols, List.map_cons, List.map_nil, List.mem_singleton] at hma hmb
    exact absurd (hma.trans hmb.symm) hab
  | [p, q], hnd, hma, hmb, _ =>
    refine ⟨p, q, rfl, ?_⟩
    simp only [symbols, List.map_cons, List.map_nil, List.mem_cons, List.mem_singleton,
      List.not_mem_nil, or_false] at hma hmb
    simp only [symbols, List.map_cons, List.map_nil, List.nodup_cons, List.mem_singleton,
      List.not_mem_nil, not_false_eq_true, List.nodup_nil, and_true] at hnd
    rcases hma with h1 | h1 <;> rcases hmb with h2 | h2
    · exact absurd (h1.trans h2.symm) hab
    · exact Or.inl ⟨h1.symm, h2.symm⟩
    · exact Or.inr ⟨h2.symm, h1.symm⟩
    · exact absurd (h1.trans h2.symm) hab
  | x :: y :: z :: rest, hnd, _, _, hmem =>
    exfalso
    simp only [symbols, List.map_cons, List.nodup_cons, List.mem_cons, not_or] at hnd
    have hx := hmem x.1 (by simp [symbols])
    have hy := hmem y.1 (by simp [symbols])
    have hz := hmem z.1 (by simp [symbols])
    obtain ⟨⟨n1, n2, _⟩, ⟨n3, _⟩, _⟩ := hnd
    rcases hx with hx | hx <;> rcases hy with hy | hy <;> rcases hz with hz | hz <;>
      simp_all

/-- The table of a two-entry frequency list with different symbols: two
entries, the first symbol coded by the bit 0 and the second by the bit 1. -/
theorem table_two (p q : Pair) (hpq : p.1 ≠ q.1) :
    let T := qmapInsert charLt q.1 [true] (qmapInsert charLt p.1 [false] [])
    T.length = 2 ∧ (∀ c, c ∈ qmapKeys T ↔ c = p.1 ∨ c = q.1) ∧
      qmapValue T p.1 [] = [false] ∧ qmapValue T q.1 [] = [true] := by
  refine ⟨?_, ?_, ?_, ?_⟩
  · simp only [qmapInsert]
    by_cases h1 : charLt q.1 p.1 = true
    · simp [h1]
    · by_cases h2 : charLt p.1 q.1 = true
      · simp [h1, h2, qmapInsert]
      · exact absurd (charLt_trichotomy _ _ (by simpa using h2) (by simpa using h1)) hpq
  · intro c
    rw [qmapKeys_insert charLt charLt_trichotomy, qmapKeys_insert charLt charLt_trichotomy]
    simp only [qmapKeys, List.map_nil, List.not_mem_nil, or_false]
    tauto
  · rw [qmapValue_insert charLt charLt_irrefl charLt_trichotomy,
      qmapValue_insert charLt charLt_irrefl charLt_trichotomy]
    simp [hpq]
  · rw [qmapValue_insert charLt charLt_irrefl charLt_trichotomy]
    simp

theorem callsOn_nonempty (list sub : List Pair) (h : CallsOn list sub)
    (hl : 1 ≤ list.length) : 1 ≤ sub.length := by
  induction h with
  | self list => exact hl
  | left list sub hne _ ih =>
    have hr := balancedMid_range list (by omega)
    apply ih
    rw [List.length_take]
    omega
  | right list sub hne _ ih =>
    have hr := balancedMid_range list (by omega)
    apply ih
    rw [List.length_drop]
    omega
theorem codeMatches_true_iff (s p : List Bool) : codeMatches s p = .ok true ↔ p <+: s := by
  induction p generalizing s with
  | nil => cases s <;> simp [codeMatches]
  | cons y p ih =>
    cases s with
    | nil => simp [codeMatches]
    | cons x s =>
      simp only [codeMatches]
      by_cases hxy : x = y
      · subst hxy
        simp only [bne_self_eq_false, Bool.false_eq_true, if_false, ih, List.cons_prefix_cons,
          true_and]
      · have hyx : ¬ y = x := fun e => hxy e.symm
        simp [hxy, hyx, List.cons_prefix_cons]

theorem codeMatches_error (s p : List Bool) (e : Fault) (h : codeMatches s p = .error e) :
    e = Fault.outOfRange ∧ s <+: p ∧ s.length < p.length := by
  induction p generalizing s with
  | nil => cases s <;> simp [codeMatches] at h
  | cons y p ih =>
    cases s with
    | nil =>
      simp only [codeMatches, Except.error.injEq] at h
      exact ⟨h.symm, List.nil_prefix, by simp⟩
    | cons x s =>
      simp only [codeMatches] at h
      by_cases hxy : x = y
      · subst hxy
        simp only [bne_self_eq_false, Bool.false_eq_true, if_false] at h
        have := ih s h
        exact ⟨this.1, List.cons_prefix_cons.mpr ⟨rfl, this.2.1⟩, by simpa using this.2.2⟩
      · simp [hxy] at h

theorem codeMatches_false_of_length (s p : List Bool) (hlen : p.length ≤ s.length)
    (hno : ¬ p <+: s) : codeMatches s p = .ok false := by
  cases h : codeMatches s p with
  | error e =>
    have := codeMatches_error s p e h
    omega
  | ok r =>
    cases r with
    | false => rfl
    | true => exact absurd ((codeMatches_true_iff s p).mp h) hno

theorem unzipPass_all_false (cl : List (CodeList × Byte)) (s : List Bool) (data : QByteArray)
    (h : ∀ e ∈ cl, codeMatches s e.1 = .ok false) : unzipPass cl s data = .ok (s, data) := by
  induction cl with
  | nil => rfl
  | cons e cl ih =>
    simp only [unzipPass, h e (List.mem_cons_self _ _)]
    exact ih (fun e2 he2 => h e2 (List.mem_cons_of_mem _ he2))

theorem unzipPass_fault (cl : List (CodeList × Byte)) (s : List Bool) (data : QByteArray)
    (hno : ∀ e ∈ cl, codeMatches s e.1 ≠ .ok true)
    (e : CodeList × Byte) (he : e ∈ cl) (err : Fault) (herr : codeMatches s e.1 = .error err) :
    unzipPass cl s data = .error Fault.outOfRange := by
  induction cl with
  | nil => simp at he
  | cons e1 cl ih =>
    simp only [unzipPass]
    cases h1 : codeMatches s e1.1 with
    | error er =>
      simp only
      rw [(codeMatches_error s e1.1 er h1).1]
    | ok r =>
      cases r with
      | true => exact absurd h1 (hno e1 (List.mem_cons_self _ _))
      | false =>
        simp only
        apply ih (fun e2 he2 => hno e2 (List.mem_cons_of_mem _ he2))
        rcases List.mem_cons.mp he with h | h
        · rw [h, h1] at herr; cases herr
        · exact h

theorem unzipPass_match (cl : List (CodeList × Byte)) (s : List Bool) (data : QByteArray)
    (e : CodeList × Byte) (he : e ∈ cl) (hm : codeMatches s e.1 = .ok true)
    (hall : ∀ e2 ∈ cl, codeMatches s e2.1 = .ok true → e2 = e)
    (hnoerr : ∀ e2 ∈ cl, ∀ err, codeMatches s e2.1 ≠ .error err) :
    unzipPass cl s data = .ok (s.drop e.1.length, data ++ [e.2]) := by
  induction cl with
  | nil => simp at he
  | cons e1 cl ih =>
    simp only [unzipPass]
    cases h1 : codeMatches s e1.1 with
    | error er => exact absurd h1 (hnoerr e1 (List.mem_cons_self _ _) er)
    | ok r =>
      cases r with
      | true =>
        simp only
        rw [hall e1 (List.mem_cons_self _ _) h1]
      | false =>
        simp only
        apply ih
        · rcases List.mem_cons.mp he with h | h
          · rw [h, h1] at hm; cases hm
          · exact h
        · exact fun e2 he2 => hall e2 (List.mem_cons_of_mem _ he2)
        · exact fun e2 he2 => hnoerr e2 (List.mem_cons_of_mem _ he2)

/-- One pass of the decoder gives the same result on two lists with the same
entries, when at most one entry matches and no entry runs out of bits while
another matches. -/
theorem unzipPass_perm (cl cl1 : List (CodeList × Byte)) (s : List Bool) (data : QByteArray)
    (hp : cl1.Perm cl)
    (hone : ∀ e1 ∈ cl, ∀ e2 ∈ cl, codeMatches s e1.1 = .ok true →
      (codeMatches s e2.1 = .ok true → e2 = e1) ∧ ∀ err, codeMatches s e2.1 ≠ .error err) :
    unzipPass cl1 s data = unzipPass cl s data := by
  by_cases hA : ∃ e ∈ cl, codeMatches s e.1 = .ok true
  · obtain ⟨e, he, hm⟩ := hA
    rw [unzipPass_match cl s data e he hm (fun e2 he2 h2 => (hone e he e2 he2 hm).1 h2)
        (fun e2 he2 => (hone e he e2 he2 hm).2),
      unzipPass_match cl1 s data e (hp.mem_iff.mpr he) hm
        (fun e2 he2 h2 => (hone e he e2 (hp.mem_iff.mp he2) hm).1 h2)
        (fun e2 he2 => (hone e he e2 (hp.mem_iff.mp he2) hm).2)]
  · have hno : ∀ e ∈ cl, codeMatches s e.1 ≠ .ok true := fun e he h => hA ⟨e, he, h⟩
    by_cases hB : ∃ e ∈ cl, ∃ err, codeMatches s e.1 = .error err
    · obtain ⟨e, he, err, herr⟩ := hB
      rw [unzipPass_fault cl s data hno e he err herr,
        unzipPass_fault cl1 s data (fun e2 he2 => hno e2 (hp.mem_iff.mp he2)) e
          (hp.mem_iff.mpr he) err herr]
    · have hf : ∀ e ∈ cl, codeMatches s e.1 = .ok false := by
        intro e he
        cases h : codeMatches s e.1 with
        | error err => exact absurd ⟨e, he, err, h⟩ hB
        | ok r =>
          cases r with
          | false => rfl
          | true => exact absurd h (hno e he)
      rw [unzipPass_all_false cl s data hf,
        unzipPass_all_false cl1 s data (fun e he => hf e (hp.mem_iff.mp he))]

theorem prefixFree_match_unique (T : CodeMap) (hpf : PrefixFree T) (s : List Bool)
    (a : Byte) (ha : a ∈ qmapKeys T) (b : Byte) (hb : b ∈ qmapKeys T)
    (hma : codeMatches s (qmapValue T a []) = .ok true) :
    (codeMatches s (qmapValue T b []) = .ok true → b = a) ∧
      ∀ err, codeMatches s (qmapValue T b []) ≠ .error err := by
  have hpa := (codeMatches_true_iff _ _).mp hma
  constructor
  · intro hmb
    have hpb := (codeMatches_true_iff _ _).mp hmb
    by_contra hne
    rcases List.prefix_or_prefix_of_prefix hpa hpb with h | h
    · exact hpf a ha b hb (fun e => hne e.symm) h
    · exact hpf b hb a ha hne h
  · intro err herr
    obtain ⟨_, hsb, hlt⟩ := codeMatches_error _ _ err herr
    have hab := hpa.trans hsb
    by_cases hne : a = b
    · subst hne
      have := hpa.length_le
      omega
    · exact hpf a ha b hb hne hab

/-- The decoding loop on the bits of `B`, at any fuel: the bytes of `B` when
the fuel covers them, and otherwise the fuel is used up; an index is never
out of range. -/
theorem unzipLoop_zipBits_fuel (codes : CodeMap) (hpf : PrefixFree codes)
    (hlen : ∀ c ∈ qmapKeys codes, 1 ≤ (qmapValue codes c []).length)
    (B : QByteArray) (hcov : ∀ b ∈ B, b ∈ qmapKeys codes)
    (fuel : Nat) (data : QByteArray) :
    unzipLoop (unzipCodeList codes) fuel (zipBits B codes) data =
      if B.length ≤ fuel then .ok (data ++ B) else .error Fault.outOfFuel := by
  by_cases hf : B.length ≤ fuel
  · rw [if_pos hf]
    exact unzipLoop_zipBits codes hpf hlen B hcov fuel hf data
  · rw [if_neg hf]
    induction B generalizing fuel data with
    | nil => simp at hf
    | cons b B ih =>
      have hbk : b ∈ qmapKeys codes := hcov b (List.mem_cons_self _ _)
      have hne : qmapValue codes b [] ≠ [] := by
        intro h
        have := hlen b hbk
        rw [h] at this; simp at this
      have hz : zipBits (b :: B) codes = qmapValue codes b [] ++ zipBits B codes := by
        simp [zipBits_eq]
      have hnil : (qmapValue codes b [] ++ zipBits B codes).isEmpty = false := by
        cases hq : qmapValue codes b [] with
        | nil => exact absurd hq hne
        | cons x xs => rfl
      rw [hz]
      cases fuel with
      | zero => simp [unzipLoop, hnil]
      | succ fuel =>
        rw [unzipLoop, hnil]
        simp only [Bool.false_eq_true, if_false]
        unfold unzipCodeList
        rw [unzipPass_code codes b (zipBits B codes) data (qmapKeys codes) _ hbk]
        · simp only
          have := ih (fun x hx => hcov x (List.mem_cons_of_mem _ hx)) fuel (data ++ [b])
            (by simp at hf; omega)
          unfold unzipCodeList at this
          exact this
        · intro s hs hsb
          exact ⟨hpf s hs b hbk hsb, hpf b hbk s hs (fun h => hsb h.symm)⟩

theorem unzip_zip_fuel (codes : CodeMap) (hpf : PrefixFree codes)
    (hlen : ∀ c ∈ qmapKeys codes, 1 ≤ (qmapValue codes c []).length)
    (B : QByteArray) (hcov : ∀ b ∈ B, b ∈ qmapKeys codes) (fuel : Nat) :
    unzip fuel (zip B codes) codes =
      if B.length ≤ fuel then .ok B else .error Fault.outOfFuel := by
  rw [zip_eq]
  unfold unzip
  simp only [List.drop_succ_cons, List.drop_zero, List.take_succ_cons, List.take_zero, byteAt,
    List.getD_cons_zero]
  rw [natToChar_small _ (by omega), bytesToBits_bitsToBytes, removeExtra_append]
  simp only
  rw [unzipLoop_zipBits_fuel codes hpf hlen B hcov fuel]
  simp

/-- While the bits of a non-empty covered buffer are decoded, testing any
code of a prefix-free table against them ends with a match or a mismatch
inside the bits. -/
theorem codeMatches_zipBits (codes : CodeMap) (hpf : PrefixFree codes)
    (b : Byte) (B : QByteArray) (hb : b ∈ qmapKeys codes) (c : Byte) (hc : c ∈ qmapKeys codes) :
    codeMatches (zipBits (b :: B) codes) (qmapValue codes c []) = .ok (decide (c = b)) := by
  have hz : zipBits (b :: B) codes = qmapValue codes b [] ++ zipBits B codes := by
    simp [zipBits_eq]
  rw [hz]
  by_cases hcb : c = b
  · subst hcb
    simp [codeMatches_self]
  · rw [codeMatches_other _ _ _ (hpf c hc b hb hcb) (hpf b hb c hc (fun e => hcb e.symm))]
    simp [hcb]

theorem unzipPass_no_match (T : CodeMap) (nlist : List Bool) (data : QByteArray)
    (hlen : ∀ c ∈ qmapKeys T, (qmapValue T c []).length ≤ nlist.length)
    (hno : ∀ c ∈ qmapKeys T, ¬ (qmapValue T c [] <+: nlist)) :
    unzipPass (unzipCodeList T) nlist data = .ok (nlist, data) := by
  apply unzipPass_all_false
  intro e he
  simp only [unzipCodeList, List.mem_map] at he
  obtain ⟨c, hc, rfl⟩ := he
  exact codeMatches_false_of_length _ _ (hlen c hc) (hno c hc)

theorem unzipLoop_stuck (cl : List (CodeList × Byte)) (nlist : List Bool) (data : QByteArray)
    (hne : nlist ≠ []) (hpass : unzipPass cl nlist data = .ok (nlist, data)) (fuel : Nat) :
    unzipLoop cl fuel nlist data = .error Fault.outOfFuel := by
  have hnil : nlist.isEmpty = false := by
    cases nlist with
    | nil => exact absurd rfl hne
    | cons _ _ => rfl
  induction fuel with
  | zero => simp [unzipLoop, hnil]
  | succ fuel ih =>
    rw [unzipLoop, hnil]
    simp only [Bool.false_eq_true, if_false, hpass]
    exact ih

theorem qmapValue_not_mem {κ α : Type} [DecidableEq κ] (m : List (κ × α)) (k : κ) (d : α)
    (h : k ∉ qmapKeys m) : qmapValue m k d = d := by
  induction m with
  | nil => rfl
  | cons p m ih =>
    obtain ⟨k1, v1⟩ := p
    have h1 : ¬ k1 = k := fun e => h (by simp [qmapKeys, e])
    have h2 : k ∉ qmapKeys m := fun hm => h (by
      simp only [qmapKeys, List.map_cons, List.mem_cons] at hm ⊢
      exact Or.inr hm)
    simp only [qmapValue, h1, if_false]
    exact ih h2

theorem zipBits_filter (T : CodeMap) (B : QByteArray) :
    zipBits (B.filter (fun c => qmapContains T c)) T = zipBits B T := by
  rw [zipBits_eq, zipBits_eq]
  induction B with
  | nil => rfl
  | cons b B ih =>
    by_cases hb : qmapContains T b = true
    · simp only [List.filter_cons, hb, if_true, List.flatMap_cons, ih]
    · have hnk : b ∉ qmapKeys T := fun h => hb ((qmapContains_iff T b).mpr h)
      have hv : qmapValue T b [] = [] := qmapValue_not_mem T b [] hnk
      simp only [List.filter_cons, hb, Bool.false_eq_true, if_false, List.flatMap_cons, hv,
        List.nil_append, ih]

/-- The counts of the frequency list of a buffer are not negative and add up
to the length of the buffer. -/
theorem buildList_sum_counts (B : QByteArray) :
    (∀ p ∈ buildList B, 0 ≤ p.2) ∧ ((buildList B).map Prod.snd).sum = (B.length : Int) := by
  constructor
  · intro p hp
    rw [((mem_buildList B p).mp hp).2]
    exact Int.natCast_nonneg _
  · have hmap : (buildList B).map Prod.snd =
        (symbols (buildList B)).map (fun c => (B.count c : Int)) := by
      unfold symbols
      rw [List.map_map]
      apply List.map_congr_left
      intro p hp
      exact ((mem_buildList B p).mp hp).2
    have hperm : (symbols (buildList B)).Perm B.dedup :=
      (List.perm_ext_iff_of_nodup (symbols_buildList_nodup B) (List.nodup_dedup B)).mpr
        (fun c => by rw [mem_symbols_buildList, List.mem_dedup])
    rw [hmap, (hperm.map _).sum_eq]
    have h := List.sum_map_count_dedup_eq_length B
    have h2 : (((B.dedup.map (fun c => B.count c)).sum : Nat) : Int) = (B.length : Int) := by
      rw [h]
    rw [← h2, Nat.cast_list_sum, List.map_map]
    rfl

/-- The frequency list of a buffer of fewer than 2^31 bytes, the most a
QByteArray holds, is in the range in which the sums of `balancedMid` do not
wrap. -/
theorem buildList_counts_in_range (B : QByteArray) (hB : B.length < 2147483648) :
    (∀ p ∈ buildList B, 0 ≤ p.2) ∧ ((buildList B).map Prod.snd).sum < 2147483648 := by
  obtain ⟨h1, h2⟩ := buildList_sum_counts B
  refine ⟨h1, ?_⟩
  rw [h2]
  omega

/-- Outside that range the `int` sums wrap: for the counts 2^31 - 1, 2^31 - 1,
2^31 - 1, 3 the keys computed are 2147483646, 2147483644 and 2147483642,
and `balancedMid` returns the index 2, although the split behind index 1 has
the smaller imbalance. -/
theorem balancedMid_wraps :
    splitKey [(97, 2147483647), (98, 2147483647), (99, 2147483647), (100, 3)] 0 = 2147483646 ∧
    splitKey [(97, 2147483647), (98, 2147483647), (99, 2147483647), (100, 3)] 1 = 2147483644 ∧
    splitKey [(97, 2147483647), (98, 2147483647), (99, 2147483647), (100, 3)] 2 = 2147483642 ∧
    balancedMid [(97, 2147483647), (98, 2147483647), (99, 2147483647), (100, 3)] = 2 ∧
    imbalance [(97, 2147483647), (98, 2147483647), (99, 2147483647), (100, 3)] 1 <
      imbalance [(97, 2147483647), (98, 2147483647), (99, 2147483647), (100, 3)] 2 := by
  decide

/-! ## The claims, continued -/

/-- C11, counterexample: in the buffer "ab" both bytes occur once and 'a' is
met first, but `buildList` puts the entry of 'b' before the entry of 'a'.
The buffers "ab" and "ba" get the same list, because the counting map is
keyed by the byte value, so first-seen order must fail for one of the two
however the sort treats equal counts. -/
theorem tie_break_first_seen_fails :
    buildList [97, 98] = [(98, 1), (97, 1)] ∧
    ¬ TiesInFirstSeenOrder [97, 98] (buildList [97, 98]) ∧
    buildList [98, 97] = buildList [97, 98] ∧
    ¬ (TiesInFirstSeenOrder [97, 98] (buildList [97, 98]) ∧
        TiesInFirstSeenOrder [98, 97] (buildList [98, 97])) := by
  decide

/-- C11, amended: the order of the entries of `buildList B`, entries with
equal counts included, is fixed by which byte values occur in `B` and how
often, not by the order in which they are first met: every rearrangement of
`B` gives the same list. -/
theorem buildList_order_of_counts (B B1 : QByteArray) (h : B.Perm B1) :
    buildList B = buildList B1 :=
  buildList_of_perm B B1 h

/-- C11, amended, at the buffers "ab" and "ba": the same list, with 'b' first. -/
theorem buildList_order_of_counts_witness :
    ([97, 98] : QByteArray).Perm [98, 97] ∧ buildList [97, 98] = buildList [98, 97] :=
  ⟨List.Perm.swap _ _ _, buildList_order_of_counts [97, 98] [98, 97] (List.Perm.swap _ _ _)⟩

/-- C12: for every frequency list of `n >= 2` entries whose counts are not
negative and add up to less than 2^31, as they do in every list built from a
buffer, so that the `int` sums of `balancedMid` do not wrap, `balancedMid`
returns a split index `m` with `0 <= m <= n - 2` whose imbalance, the
absolute difference of the sums of the counts at `0 .. m` and at
`m + 1 .. n - 1`, is minimal among all split indices `0 .. n - 2`. -/
theorem balancedMid_minimizes (list : List Pair) (h : 2 ≤ list.length)
    (hnn : ∀ p ∈ list, 0 ≤ p.2) (hsum : (list.map Prod.snd).sum < 2147483648) :
    ∃ m : Nat, balancedMid list = (m : Int) ∧ m + 2 ≤ list.length ∧
      ∀ k, k + 2 ≤ list.length → imbalance list m ≤ imbalance list k := by
  obtain ⟨m, h1, h2, h3, _⟩ := balancedMid_spec list h hnn hsum
  exact ⟨m, h1, h2, h3⟩

/-- C12 at the frequency list b:2, a:2, c:1 of the buffer "aabbc". -/
theorem balancedMid_minimizes_witness :
    (2 ≤ ([(98, 2), (97, 2), (99, 1)] : List Pair).length ∧
      (∀ p ∈ ([(98, 2), (97, 2), (99, 1)] : List Pair), 0 ≤ p.2) ∧
      (([(98, 2), (97, 2), (99, 1)] : List Pair).map Prod.snd).sum < 2147483648) ∧
    ∃ m : Nat, balancedMid [(98, 2), (97, 2), (99, 1)] = (m : Int) ∧
      m + 2 ≤ ([(98, 2), (97, 2), (99, 1)] : List Pair).length ∧
      ∀ k, k + 2 ≤ ([(98, 2), (97, 2), (99, 1)] : List Pair).length →
        imbalance [(98, 2), (97, 2), (99, 1)] m ≤ imbalance [(98, 2), (97, 2), (99, 1)] k :=
  ⟨by decide,
    balancedMid_minimizes [(98, 2), (97, 2), (99, 1)] (by decide) (by decide) (by decide)⟩

/-- C13, counterexample: the frequency list b:1, a:1, c:1 (that of the buffer
"abc") has the imbalance 1 at both split indices 0 and 1; `balancedMid`
returns 1, not the smallest index 0. -/
theorem split_tie_break_smallest_fails :
    buildList [97, 98, 99] = [(98, 1), (97, 1), (99, 1)] ∧
    imbalance [(98, 1), (97, 1), (99, 1)] 0 = 1 ∧
    imbalance [(98, 1), (97, 1), (99, 1)] 1 = 1 ∧
    balancedMid [(98, 1), (97, 1), (99, 1)] = 1 ∧
    ¬ (∀ k : Nat, k + 2 ≤ ([(98, 1), (97, 1), (99, 1)] : List Pair).length →
        imbalance [(98, 1), (97, 1), (99, 1)] k =
          imbalance [(98, 1), (97, 1), (99, 1)] (balancedMid [(98, 1), (97, 1), (99, 1)]).toNat →
        (balancedMid [(98, 1), (97, 1), (99, 1)]).toNat ≤ k) := by
  refine ⟨by decide, by decide, by decide, by decide, fun h => ?_⟩
  have h0 := h 0 (by decide) (by decide)
  revert h0
  decide

/-- C13, amended: for every frequency list of `n >= 2` entries whose counts
are not negative and add up to less than 2^31, as they do in every list built
from a buffer, when several split indices attain the minimal imbalance,
`balancedMid` returns the largest such index (the last minimum met scanning
left to right): an insert into the map replaces the index stored under an
equal imbalance. -/
theorem balancedMid_last_minimum (list : List Pair) (h : 2 ≤ list.length)
    (hnn : ∀ p ∈ list, 0 ≤ p.2) (hsum : (list.map Prod.snd).sum < 2147483648) :
    ∃ m : Nat, balancedMid list = (m : Int) ∧ m + 2 ≤ list.length ∧
      (∀ k, k + 2 ≤ list.length → imbalance list m ≤ imbalance list k) ∧
      (∀ k, k + 2 ≤ list.length → imbalance list k = imbalance list m → k ≤ m) :=
  balancedMid_spec list h hnn hsum

/-- C13, amended, at the frequency list b:1, a:1, c:1 of the buffer "abc". -/
theorem balancedMid_last_minimum_witness :
    (2 ≤ ([(98, 1), (97, 1), (99, 1)] : List Pair).length ∧
      (∀ p ∈ ([(98, 1), (97, 1), (99, 1)] : List Pair), 0 ≤ p.2) ∧
      (([(98, 1), (97, 1), (99, 1)] : List Pair).map Prod.snd).sum < 2147483648) ∧
    balancedMid [(98, 1), (97, 1), (99, 1)] = 1 ∧
    ∃ m : Nat, balancedMid [(98, 1), (97, 1), (99, 1)] = (m : Int) ∧
      m + 2 ≤ ([(98, 1), (97, 1), (99, 1)] : List Pair).length ∧
      (∀ k, k + 2 ≤ ([(98, 1), (97, 1), (99, 1)] : List Pair).length →
        imbalance [(98, 1), (97, 1), (99, 1)] m ≤ imbalance [(98, 1), (97, 1), (99, 1)] k) ∧
      (∀ k, k + 2 ≤ ([(98, 1), (97, 1), (99, 1)] : List Pair).length →
        imbalance [(98, 1), (97, 1), (99, 1)] k = imbalance [(98, 1), (97, 1), (99, 1)] m →
          k ≤ m) :=
  ⟨by decide, by decide,
    balancedMid_last_minimum [(98, 1), (97, 1), (99, 1)] (by decide) (by decide) (by decide)⟩

/-- C14, the code on single-symbol buffers: for every non-empty buffer `B`
whose bytes all equal `a`, the frequency list is the one entry
`(a, length of B)`; the first call that `shannonFano` makes, on that entry,
does write the one-bit code 0 for `a`; but `shannonFano` itself returns no
table whatever the fuel, because its second call, on the empty rest of the
list, recurses on empty lists without end. -/
theorem single_symbol_diverges (B : QByteArray) (a : Byte) (hne : B ≠ [])
    (hall : ∀ b ∈ B, b = a) :
    buildList B = [(a, (B.length : Int))] ∧
    (∀ fuel, shannonFanoRecursive (fuel + 1) (buildList B) [] Branch.Left [] =
      some [(a, [false])]) ∧
    (∀ fuel codes, shannonFanoRecursive fuel [] codes Branch.Right [] = none) ∧
    ∀ fuel, shannonFano fuel (buildList B) [] = none := by
  have hb := buildList_single B a hne hall
  refine ⟨hb, ?_, fun fuel codes => shannonFanoRecursive_nil fuel codes _ _, ?_⟩
  · intro fuel
    rw [hb]
    simp [shannonFanoRecursive, qmapInsert]
  · intro fuel
    exact shannonFano_single_symbol B a hall fuel []

set_option maxRecDepth 4000 in

/-- C14 at the buffer "aaaa". -/
theorem single_symbol_diverges_witness :
    (([97, 97, 97, 97] : QByteArray) ≠ [] ∧ ∀ b ∈ ([97, 97, 97, 97] : QByteArray), b = 97) ∧
    buildList [97, 97, 97, 97] = [(97, (([97, 97, 97, 97] : QByteArray).length : Int))] ∧
    (∀ fuel, shannonFanoRecursive (fuel + 1) (buildList [97, 97, 97, 97]) [] Branch.Left [] =
      some [(97, [false])]) ∧
    (∀ fuel codes, shannonFanoRecursive fuel [] codes Branch.Right [] = none) ∧
    ∀ fuel, shannonFano fuel (buildList [97, 97, 97, 97]) [] = none :=
  ⟨by decide, single_symbol_diverges [97, 97, 97, 97] 97 (by decide) (by decide)⟩

/-- C15: for every byte buffer `B` whose bytes are the two different values
`a` and `b`, both occurring (equally often or not), `shannonFano` on
`buildList B` returns a table with exactly two entries, with the keys `a`
and `b`; both codes have length at least 1, and one of the two symbols has
the code 0 and the other the code 1. -/
theorem two_symbols_table (B : QByteArray) (a b : Byte) (hab : a ≠ b) (ha : a ∈ B)
    (hb : b ∈ B) (hall : ∀ c ∈ B, c = a ∨ c = b) :
    ∃ T, (∀ fuel, 1 ≤ fuel → shannonFano fuel (buildList B) [] = some T) ∧ T.length = 2 ∧
      (∀ c, c ∈ qmapKeys T ↔ c = a ∨ c = b) ∧
      1 ≤ (qmapValue T a []).length ∧ 1 ≤ (qmapValue T b []).length ∧
      qmapValue T a [] ≠ qmapValue T b [] ∧
      ((qmapValue T a [] = [false] ∧ qmapValue T b [] = [true]) ∨
        (qmapValue T a [] = [true] ∧ qmapValue T b [] = [false])) := by
  obtain ⟨p, q, hl, hpq⟩ := buildList_two B a b hab ha hb hall
  have hne : p.1 ≠ q.1 := by
    rcases hpq with ⟨h1, h2⟩ | ⟨h1, h2⟩
    · rw [h1, h2]; exact hab
    · rw [h1, h2]; exact fun e => hab e.symm
  have ht := table_two p q hne
  simp only at ht
  have hsf : ∀ fuel, 1 ≤ fuel → shannonFano fuel (buildList B) [] =
      some (qmapInsert charLt q.1 [true] (qmapInsert charLt p.1 [false] [])) := by
    intro fuel hf
    obtain ⟨n, rfl⟩ : ∃ n, fuel = n + 1 := ⟨fuel - 1, by omega⟩
    rw [hl, shannonFano_two]
  rcases hpq with ⟨h1, h2⟩ | ⟨h1, h2⟩
  · rw [h1, h2] at ht hsf
    obtain ⟨t1, t2, t3, t4⟩ := ht
    refine ⟨_, hsf, t1, t2, ?_⟩
    rw [t3, t4]
    exact ⟨by simp, by simp, by simp, Or.inl ⟨rfl, rfl⟩⟩
  · rw [h1, h2] at ht hsf
    obtain ⟨t1, t2, t3, t4⟩ := ht
    refine ⟨_, hsf, t1, fun c => (t2 c).trans Or.comm, ?_⟩
    rw [t3, t4]
    exact ⟨by simp, by simp, by simp, Or.inr ⟨rfl, rfl⟩⟩

set_option maxRecDepth 4000 in

/-- C15 at the buffer "abba", in which 'a' and 'b' occur twice each. -/
theorem two_symbols_table_witness :
    ((97 : Byte) ≠ 98 ∧ (97 : Byte) ∈ ([97, 98, 98, 97] : QByteArray) ∧
      (98 : Byte) ∈ ([97, 98, 98, 97] : QByteArray) ∧
      (∀ c ∈ ([97, 98, 98, 97] : QByteArray), c = 97 ∨ c = 98) ∧
      ([97, 98, 98, 97] : QByteArray).count 97 = ([97, 98, 98, 97] : QByteArray).count 98) ∧
    ∃ T, (∀ fuel, 1 ≤ fuel → shannonFano fuel (buildList [97, 98, 98, 97]) [] = some T) ∧
      T.length = 2 ∧ (∀ c, c ∈ qmapKeys T ↔ c = 97 ∨ c = 98) ∧
      1 ≤ (qmapValue T 97 []).length ∧ 1 ≤ (qmapValue T 98 []).length ∧
      qmapValue T 97 [] ≠ qmapValue T 98 [] ∧
      ((qmapValue T 97 [] = [false] ∧ qmapValue T 98 [] = [true]) ∨
        (qmapValue T 97 [] = [true] ∧ qmapValue T 98 [] = [false])) :=
  ⟨by decide,
    two_symbols_table [97, 98, 98, 97] 97 98 (by decide) (by decide) (by decide) (by decide)⟩

/-- C16: for every frequency list of `n >= 2` entries, `balancedMid` returns
`mid` with `0 <= mid <= n - 2`; `list.mid(0, mid + 1)` and `list.mid(mid + 1)`
are both non-empty and strictly shorter than the list; every list that
`shannonFanoRecursive` is called on, starting from the list, is non-empty;
and the recursion ends: with fuel from `n` on the call returns a table. -/
theorem no_empty_sublist (list : List Pair) (h : 2 ≤ list.length) :
    (0 ≤ balancedMid list ∧ balancedMid list ≤ (list.length : Int) - 2) ∧
    (1 ≤ (list.take (balancedMid list + 1).toNat).length ∧
      (list.take (balancedMid list + 1).toNat).length < list.length) ∧
    (1 ≤ (list.drop (balancedMid list + 1).toNat).length ∧
      (list.drop (balancedMid list + 1).toNat).length < list.length) ∧
    (∀ sub, CallsOn list sub → sub ≠ []) ∧
    (∀ fuel codes branch parent, list.length ≤ fuel →
      ∃ codes1, shannonFanoRecursive fuel list codes branch parent = some codes1) := by
  have hr := balancedMid_range list h
  refine ⟨⟨hr.1, by omega⟩, ?_, ?_, ?_, ?_⟩
  · rw [List.length_take]; omega
  · rw [List.length_drop]; omega
  · intro sub hs hnil
    have := callsOn_nonempty list sub hs (by omega)
    rw [hnil] at this
    simp at this
  · intro fuel codes branch parent hf
    exact shannonFanoRecursive_total fuel list codes branch parent (by omega) hf

/-- C16 at the frequency list b:2, a:2, c:1. -/
theorem no_empty_sublist_witness :
    2 ≤ ([(98, 2), (97, 2), (99, 1)] : List Pair).length ∧
    (∀ sub, CallsOn [(98, 2), (97, 2), (99, 1)] sub → sub ≠ []) ∧
    shannonFanoRecursive 3 [(98, 2), (97, 2), (99, 1)] [] Branch.Left [] =
      some [(97, [false, true, false]), (98, [false, false]), (99, [false, true, true])] :=
  ⟨by decide, (no_empty_sublist [(98, 2), (97, 2), (99, 1)] (by decide)).2.2.2.1, by decide⟩

/-- C17: for every prefix-free code table `T` and every bit sequence `s`, at
most one symbol of `T` has a code that matches the front of `s` bit for bit;
and one pass of the decoder over the code-symbol pairs of `T` gives the same
result (the symbol emitted and the bits left, or no match, or the fault) in
whatever order the pairs are scanned. -/
theorem scan_order_independent (T : CodeMap) (hpf : PrefixFree T) (s : List Bool) :
    (∀ a ∈ qmapKeys T, ∀ b ∈ qmapKeys T, codeMatches s (qmapValue T a []) = .ok true →
      codeMatches s (qmapValue T b []) = .ok true → a = b) ∧
    (∀ (codeList : List (CodeList × Byte)) (data : QByteArray),
      codeList.Perm (unzipCodeList T) →
        unzipPass codeList s data = unzipPass (unzipCodeList T) s data) := by
  refine ⟨?_, ?_⟩
  · intro a ha b hb hma hmb
    exact ((prefixFree_match_unique T hpf s a ha b hb hma).1 hmb).symm
  · intro codeList data hp
    apply unzipPass_perm _ _ s data hp
    intro e1 he1 e2 he2 hm
    simp only [unzipCodeList, List.mem_map] at he1 he2
    obtain ⟨a, ha, rfl⟩ := he1
    obtain ⟨b, hb, rfl⟩ := he2
    have := prefixFree_match_unique T hpf s a ha b hb hm
    exact ⟨fun h => by rw [this.1 h], this.2⟩

set_option maxRecDepth 4000 in

/-- C17 at a table for a, b, c, the bits 1 1 0, and the pairs scanned in
reverse order: the symbol 'c' either way. -/
theorem scan_order_independent_witness :
    PrefixFree [(97, [true, false]), (98, [false]), (99, [true, true])] ∧
    unzipPass [([true, true], 99), ([false], 98), ([true, false], 97)] [true, true, false] [] =
      .ok ([false], [99]) ∧
    unzipPass [([true, true], 99), ([false], 98), ([true, false], 97)] [true, true, false] [] =
      unzipPass (unzipCodeList [(97, [true, false]), (98, [false]), (99, [true, true])])
        [true, true, false] [] :=
  ⟨by decide, rfl,
    (scan_order_independent [(97, [true, false]), (98, [false]), (99, [true, true])] (by decide)
      [true, true, false]).2 _ [] (by decide)⟩

/-- C18: for every prefix-free code table `T` whose codes all have length at
least 1 and every byte buffer `B` whose bytes all have an entry in `T`,
`unzip` on `zip B T` never reads `nlist.at(i)` with `i` not below
`nlist.size()`: at no fuel does it end in the out-of-range fault (it returns
`B` once the fuel covers the passes), and at every state of the decoding
loop, the bits of a non-empty rest `b :: B1` of `B`, the test of any code of
`T`, also one longer than the bits left, ends in a match or in a mismatch
found inside the bits. -/
theorem decoder_index_safe (T : CodeMap) (B : QByteArray) (hpf : PrefixFree T)
    (hlen : ∀ c ∈ qmapKeys T, 1 ≤ (qmapValue T c []).length)
    (hcov : ∀ b ∈ B, b ∈ qmapKeys T) :
    (∀ fuel, unzip fuel (zip B T) T ≠ .error Fault.outOfRange) ∧
    (∀ fuel, B.length ≤ fuel → unzip fuel (zip B T) T = .ok B) ∧
    (∀ B0 b B1, B = B0 ++ b :: B1 → ∀ c ∈ qmapKeys T,
      codeMatches (zipBits (b :: B1) T) (qmapValue T c []) = .ok (decide (c = b))) := by
  refine ⟨?_, ?_, ?_⟩
  · intro fuel
    rw [unzip_zip_fuel T hpf hlen B hcov fuel]
    split <;> simp
  · intro fuel hf
    rw [unzip_zip_fuel T hpf hlen B hcov fuel, if_pos hf]
  · intro B0 b B1 hB c hc
    exact codeMatches_zipBits T hpf b B1 (hcov b (by rw [hB]; simp)) c hc

set_option maxRecDepth 4000 in

/-- C18 at a table for a, b, c and the buffer "ab": when the last code, the
single bit of 'b', is decoded, the two-bit codes of 'a' and 'c' are tested
against one remaining bit and mismatch at it. -/
theorem decoder_index_safe_witness :
    PrefixFree [(97, [true, false]), (98, [false]), (99, [true, true])] ∧
    zipBits [98] [(97, [true, false]), (98, [false]), (99, [true, true])] = [false] ∧
    codeMatches (zipBits [98] [(97, [true, false]), (98, [false]), (99, [true, true])])
      (qmapValue [(97, [true, false]), (98, [false]), (99, [true, true])] 99 []) = .ok false ∧
    ∀ fuel, unzip fuel (zip [97, 98] [(97, [true, false]), (98, [false]), (99, [true, true])])
      [(97, [true, false]), (98, [false]), (99, [true, true])] ≠ .error Fault.outOfRange :=
  ⟨by decide, by decide,
    (decoder_index_safe [(97, [true, false]), (98, [false]), (99, [true, true])] [97, 98]
      (by decide) (by decide) (by decide)).2.2 [97] 98 [] rfl 99 (by decide),
    (decoder_index_safe [(97, [true, false]), (98, [false]), (99, [true, true])] [97, 98]
      (by decide) (by decide) (by decide)).1⟩

/-- C19: for every code table `T` and every state of the outer loop of
`unzip` in which the remaining bit list is non-empty, is at least as long as
every code of `T`, and has no code of `T` at its front, one pass of the loop
leaves the remaining bits and the output bytes unchanged; so the loop never
ends: whatever the fuel, it is used up. -/
theorem unzip_no_progress (T : CodeMap) (nlist : List Bool) (data : QByteArray)
    (hne : nlist ≠ [])
    (hlen : ∀ c ∈ qmapKeys T, (qmapValue T c []).length ≤ nlist.length)
    (hno : ∀ c ∈ qmapKeys T, ¬ (qmapValue T c [] <+: nlist)) :
    unzipPass (unzipCodeList T) nlist data = .ok (nlist, data) ∧
    ∀ fuel, unzipLoop (unzipCodeList T) fuel nlist data = .error Fault.outOfFuel :=
  ⟨unzipPass_no_match T nlist data hlen hno,
    unzipLoop_stuck _ nlist data hne (unzipPass_no_match T nlist data hlen hno)⟩

set_option maxRecDepth 8000 in

/-- C19, such an input: the table with the one code 0 for 'a' and the packed
buffer with header 0 and the byte 1, whose first bit is 1; `unzip` uses up
every fuel on it. -/
theorem unzip_no_progress_witness :
    (bytesToBits [1] ≠ [] ∧
      (∀ c ∈ qmapKeys ([(97, [false])] : CodeMap),
        (qmapValue ([(97, [false])] : CodeMap) c []).length ≤ (bytesToBits [1]).length) ∧
      (∀ c ∈ qmapKeys ([(97, [false])] : CodeMap),
        ¬ (qmapValue ([(97, [false])] : CodeMap) c [] <+: bytesToBits [1]))) ∧
    ∀ fuel, unzip fuel [0, 1] [(97, [false])] = .error Fault.outOfFuel :=
  ⟨by decide, fun fuel =>
    (unzip_no_progress [(97, [false])] (bytesToBits [1]) [] (by decide) (by decide)
      (by decide)).2 fuel⟩

/-- C20: for every code table `T` and every byte buffer `B`, `zip B T` is
defined (it is a total function); a byte without an entry in `T` has the
empty code, so it adds no bits, and `zip B T` equals `zip` of `B` with every
byte that lacks an entry in `T` removed. -/
theorem zip_drops_uncovered (T : CodeMap) (B : QByteArray) :
    (∀ c, c ∉ qmapKeys T → qmapValue T c [] = []) ∧
    zipBits B T = zipBits (B.filter (fun c => qmapContains T c)) T ∧
    zip B T = zip (B.filter (fun c => qmapContains T c)) T := by
  refine ⟨fun c hc => qmapValue_not_mem T c [] hc, (zipBits_filter T B).symm, ?_⟩
  rw [zip_eq, zip_eq, zipBits_filter]

end ShannonFano
